import Mathlib

/-!
Shallow embedding of the pyconvy batch transcoding scheduler
(module pyconvy, files pyconvy/init and pyconvy/main of the repository).

Modeling conventions:
* Filesystem paths are lists of name components; the absolute path /a/b is
  the list with elements "a" and "b".
* Python dicts with string keys are association lists updated in place
  (insertion order preserved, as in CPython).
* A parsed configparser file is a list of (section name, entries) pairs;
  configparser rejects duplicate sections and duplicate keys inside a
  section, so lookups take the first match.
* Python exceptions are explicit: pure helpers return Except, and the
  stateful traversal runs in a small state monad PyM whose outcome
  distinguishes a normal return, the ItemProcessed control exception, and
  any other exception.  Side effects on the filesystem are a set of marker
  files (the only files the program itself writes); probe, encode and
  notification calls to external collaborators are recorded as trace
  events, and the outcome of each external encoder run is drawn from a
  script of booleans (true = subprocess.run returns, false = it raises).
* Wall clock timestamps that the source embeds in marker texts and
  notification messages are omitted: marker content is never read back by
  the program.
-/

namespace Pyconvy

abbrev Path := List String

def pathStr (p : Path) : String := "/" ++ String.intercalate "/" p

/-! ### Python dictionaries as association lists -/

abbrev Dict := List (String × String)

def dictGet (d : Dict) (k : String) : Option String :=
  (d.find? (fun kv => kv.1 == k)).map (fun kv => kv.2)

def dictHas (d : Dict) (k : String) : Bool :=
  (d.find? (fun kv => kv.1 == k)).isSome

/-- In place update of a Python dict: an existing key keeps its position,
a new key is appended. -/
def dictSet (d : Dict) (k v : String) : Dict :=
  if dictHas d k then d.map (fun kv => if kv.1 == k then (k, v) else kv)
  else d ++ [(k, v)]

/-! ### Parsed descriptor files (configparser) -/

abbrev CfgFile := List (String × Dict)

def cfgSection (c : CfgFile) (name : String) : Option Dict :=
  (c.find? (fun s => s.1 == name)).map (fun s => s.2)

def cfgHasSection (c : CfgFile) (name : String) : Bool :=
  (cfgSection c name).isSome

def sectionItems (c : CfgFile) (name : String) : List (String × String) :=
  (cfgSection c name).getD []

def VALID_MODES : List String := ["subdir", "movie", "tv", "soundtrack"]

def mainMode (c : CfgFile) : Option String :=
  (cfgSection c "main").bind (fun m => dictGet m "mode")

/-- ConvyConfig.IsMainModeSubdir and friends: case insensitive test of the
mode key of the main section. -/
def isMode (c : CfgFile) (m : String) : Bool :=
  match mainMode c with
  | some v => v.toLower == m
  | none => false

/-- The validation loop at the end of ConvyConfig.Read over the non main
sections: every section named settings-TIER must carry a res key. -/
def settingsResCheck : CfgFile → Except String Unit
  | [] => .ok ()
  | (name, sec) :: rest =>
    if name == "main" then settingsResCheck rest
    else if name.startsWith "settings-" && !(dictHas sec "res") then
      .error "settings section does not have a res key to indicate resolution"
    else settingsResCheck rest

/-- ConvyConfig.Read validation: the main section exists, main.mode exists
and is one of the valid modes, and every settings-TIER section has a res
key.  (The directory listing that Read also performs is modeled separately
where the node items are built.) -/
def Read (c : CfgFile) : Except String Unit :=
  if !(cfgHasSection c "main") then .error "no main section found"
  else
    match dictGet ((cfgSection c "main").getD []) "mode" with
    | none => .error "main mode is not set"
    | some m =>
      if !(VALID_MODES.contains m.toLower) then .error "main mode is not recognized"
      else settingsResCheck c

/-! ### VideoHelp: resolution classification, names, filters -/

/-- VideoHelp.GuessResolution.  On an unrecognized pair the source tries to
raise ValueError but the message formatting references the name subp which
is not defined in that static method, so a NameError is raised instead;
either way an exception propagates to the caller. -/
def GuessResolution (w h : Nat) : Except String String :=
  if (w, h) = (720, 480) then .ok "sd"
  else if (w, h) = (1080, 720) then .ok "hd"
  else if (w, h) = (1920, 1080) then .ok "1k"
  else if (w, h) = (4096, 2160) ∨ (w, h) = (3840, 2160) then .ok "4k"
  else .error "NameError: name subp is not defined"

/-- Split a character list before its last dot, if any. -/
def lastDotSplit : List Char → Option (List Char × List Char)
  | [] => none
  | c :: rest =>
    match lastDotSplit rest with
    | some (a, b) => some (c :: a, b)
    | none => if c = '.' then some ([], c :: rest) else none

/-- os.path.splitext on a bare name: split before the last dot unless every
character in front of that dot is itself a dot (Python keeps such names,
e.g. dot files, whole). -/
def pySplitExt (n : String) : String × String :=
  match lastDotSplit n.toList with
  | some (a, b) =>
    if a.any (fun c => c ≠ '.') then (String.mk a, String.mk b) else (n, "")
  | none => (n, "")

/-- VideoHelp.GetDotFileName: sibling path with a dot prefixed basename. -/
def GetDotFileName (p : Path) : Path :=
  p.dropLast ++ ["." ++ p.getLastD ""]

/-- VideoHelp.GetFileResolutionName.  Note the source calls os.path.join on
the extension free path and the string built from a space, the resolution
and the extension, so the result is a path one level deeper than the
input. -/
def GetFileResolutionName (p : Path) (res : String) : Path :=
  let se := pySplitExt (p.getLastD "")
  (p.dropLast ++ [se.1]) ++ [" " ++ res ++ se.2]

/-- VideoHelp.DotFileResolutionExists.  Despite its name the source returns
the dot file path and never calls os.path.exists; every caller tests
existence itself. -/
def DotFileResolutionExists (p : Path) (res : String) : Path :=
  GetDotFileName (GetFileResolutionName p res)

def charListLt : List Char → List Char → Bool
  | [], [] => false
  | [], _ :: _ => true
  | _ :: _, [] => false
  | a :: as, b :: bs =>
    if a.toNat < b.toNat then true
    else if b.toNat < a.toNat then false
    else charListLt as bs

/-- Python string comparison by code points. -/
def strLtB (a b : String) : Bool := charListLt a.toList b.toList

def insSorted (x : String) : List String → List String
  | [] => [x]
  | y :: ys => if strLtB y x then y :: insSorted x ys else x :: y :: ys

/-- list.sort of a list of strings. -/
def sortStr (l : List String) : List String := l.foldr insSorted []

/-- VideoHelp.FilterFilesForVideos: drop dot files, .cfg/.py/.txt files and
names whose extension free part ends in a space plus a tier, then sort. -/
def FilterFilesForVideos (items : List String) : List String :=
  let items := items.filter (fun s => !(s.startsWith "."))
  let items := items.filter (fun s => !(s.endsWith ".cfg"))
  let items := items.filter (fun s => !(s.endsWith ".py"))
  let items := items.filter (fun s => !(s.endsWith ".txt"))
  let items := items.filter (fun s => !((pySplitExt s).1.endsWith " sd"))
  let items := items.filter (fun s => !((pySplitExt s).1.endsWith " hd"))
  let items := items.filter (fun s => !((pySplitExt s).1.endsWith " 1k"))
  let items := items.filter (fun s => !((pySplitExt s).1.endsWith " 4k"))
  sortStr items

/-! ### ConvyConfig.GetSettings (layered settings resolution)

The upward parent walk of the source is modeled by the explicit chain of
parsed configs, deepest (self) first.  The source reads the resolution key
out of the passed dict (a KeyError if absent; every call site has set the
key just before, so the default below never fires). -/

def GetSettings (chain : List CfgFile) (settings : Dict) : Dict :=
  let res := (dictGet settings "resolution").getD ""
  let key := "settings-" ++ res
  let basekey := "settings"
  let toapply := (chain.map (fun c => sectionItems c key ++ sectionItems c basekey)).flatten
  (toapply.reverse).foldl (fun s kv => dictSet s kv.1 kv.2) settings

/-- Lookup of key k in the sections of one config that apply to tier res:
the tier specific section first, then the generic settings section.  This
is the per node winner under the reverse and overwrite scheme of
GetSettings. -/
def applicableLookup (c : CfgFile) (res k : String) : Option String :=
  ((sectionItems c ("settings-" ++ res) ++ sectionItems c "settings").find?
      (fun kv => kv.1 == k)).map (fun kv => kv.2)

/-- First node of the chain (deepest first) with an applicable binding. -/
def firstApplicable : List CfgFile → String → String → Option String
  | [], _, _ => none
  | c :: rest, res, k =>
    match applicableLookup c res k with
    | some v => some v
    | none => firstApplicable rest res k

/-! ### The multi resolution fan out (shared by ProcessMovie,
_ProcessTV_SeasonEpisode and _ProcessTV_SeasonSpecial)

The source repeats this block verbatim at its three call sites (the movie,
episode and special processing functions); it is written once here.  In the
hd branch the source calls GetSettings on the base dict settings instead of
on the fresh copy s, so the copies appended to the result never receive the
resolved configuration keys, while the base dict is mutated between the two
loop iterations (and the second copy therefore starts from the base dict as
already mutated by the first call). -/

def buildSets (chain : List CfgFile) (settings : Dict) (res : String)
    (multi : Bool) : Except String (List Dict) :=
  if multi then
    if res == "4k" then
      .ok (["4k", "1k", "hd", "sd"].map
        (fun r => GetSettings chain (dictSet settings "resolution" r)))
    else if res == "1k" then
      .ok (["1k", "hd", "sd"].map
        (fun r => GetSettings chain (dictSet settings "resolution" r)))
    else if res == "hd" then
      let s1 := dictSet settings "resolution" "hd"
      let base1 := GetSettings chain settings
      let s2 := dictSet base1 "resolution" "sd"
      let _base2 := GetSettings chain base1
      .ok [s1, s2]
    else if res == "sd" then
      .ok [GetSettings chain settings]
    else .error "Shouldnt reach this"
  else
    .ok [GetSettings chain settings]

/-- The ladder of tiers produced by one fan out, in order: the resolution
key of each settings dict handed to ProcessVideo. -/
def ladderOf (chain : List CfgFile) (settings : Dict) (res : String)
    (multi : Bool) : Except String (List String) :=
  (buildSets chain settings res multi).map
    (fun sets => sets.map (fun s => (dictGet s "resolution").getD ""))

/-- Numeric rank of a tier, for stating monotonicity. -/
def tierRank : String → Nat
  | "sd" => 0
  | "hd" => 1
  | "1k" => 2
  | "4k" => 3
  | _ => 4

/-- True when no section of any config in the chain binds the key
resolution (real descriptors only bind video.* , output.* and res keys, so
this holds for every intended configuration). -/
def chainNoResKey (chain : List CfgFile) : Bool :=
  chain.all (fun c => c.all (fun sec => sec.2.all (fun kv => kv.1 != "resolution")))

/-! ### Static filesystem model and the config tree builder

A directory on disk holds an optional descriptor file convy.cfg (kept apart
from the plain entries, so the exclusion of the descriptor itself from the
listing is implicit) and a list of named entries in listdir order.  A video
file carries its size and the dimension pair the external prober would
report (none when the file has no video track). -/

structure VInfo where
  size : Nat
  dims : Option (Nat × Nat)
  deriving DecidableEq, Repr

mutual
inductive PDir where
  | node : Option CfgFile → PEntries → PDir
  deriving DecidableEq, Repr
inductive PEntries where
  | pnil : PEntries
  | pdir : String → PDir → PEntries → PEntries
  | pfile : String → VInfo → PEntries → PEntries
  deriving DecidableEq, Repr
end

/-- The items list ConvyConfig.Read builds: every non dot entry of the
directory, tagged d or f, with its full path. -/
def entryItems (root : Path) : PEntries → List (Char × String × Path)
  | .pnil => []
  | .pdir nm _ rest =>
    if nm.startsWith "." then entryItems root rest
    else ('d', nm, root ++ [nm]) :: entryItems root rest
  | .pfile nm _ rest =>
    if nm.startsWith "." then entryItems root rest
    else ('f', nm, root ++ [nm]) :: entryItems root rest

mutual
inductive Node where
  | mk : CfgFile → List (Char × String × Path) → NodeList → Node
  deriving DecidableEq, Repr
inductive NodeList where
  | nil : NodeList
  | cons : Node → NodeList → NodeList
  deriving DecidableEq, Repr
end

def Node.cfg : Node → CfgFile
  | .mk c _ _ => c

def Node.items : Node → List (Char × String × Path)
  | .mk _ i _ => i

def Node.children : Node → NodeList
  | .mk _ _ ch => ch

mutual
/-- Convy._scansubdir: no descriptor means the directory is not managed
(result none); otherwise the descriptor is read and validated (an error
propagates), and in subdir mode every non dot sub directory is scanned
recursively, sub directories that are not managed being silently skipped
while any recursive error aborts the whole scan. -/
def scansubdir (root : Path) : PDir → Except String (Option Node)
  | .node none _ => .ok none
  | .node (some cfg) ents => do
    let _ ← Read cfg
    let items := entryItems root ents
    if isMode cfg "subdir" then do
      let children ← scanDirs root ents
      .ok (some (.mk cfg items children))
    else .ok (some (.mk cfg items .nil))

/-- The recursion of _scansubdir over self.Directories, in listing order. -/
def scanDirs (root : Path) : PEntries → Except String NodeList
  | .pnil => .ok .nil
  | .pfile _ _ rest => scanDirs root rest
  | .pdir nm d rest =>
    if nm.startsWith "." then scanDirs root rest
    else do
      match ← scansubdir (root ++ [nm]) d with
      | some c => (scanDirs root rest).map (NodeList.cons c)
      | none => scanDirs root rest
end

/-- Convy.addpath: scan the root; a raised error propagates, a None result
raises, and only on success is the node registered in the paths map (the
returned node is the registered value). -/
def addpath (root : Path) (d : PDir) : Except String Node :=
  match scansubdir root d with
  | .error e => .error e
  | .ok none => .error "Added path that is not valid"
  | .ok (some c) => .ok c

/-! ### Dynamic state: markers, encoder script, observable trace -/

/-- Content shape of a marker file the program writes.  Timestamps and the
traceback text are omitted (content is diagnostic only and never read
back); the shape records what the source writes: completion of a whole
item, an empty season marker, completion of one rung (with the argument
list), or failure of one rung (with the failing pass index and argument
list). -/
inductive MarkText where
  | itemCompleted
  | seasonMark
  | rungCompleted (args : List String)
  | rungFailed (passIdx : Nat) (args : List String)
  deriving DecidableEq, Repr

abbrev Marks := List (Path × MarkText)

def markSet (m : Marks) (p : Path) (t : MarkText) : Marks :=
  if (m.find? (fun q => q.1 == p)).isSome then
    m.map (fun q => if q.1 == p then (p, t) else q)
  else m ++ [(p, t)]

def markHas (m : Marks) (p : Path) : Bool :=
  (m.find? (fun q => q.1 == p)).isSome

def markGet (m : Marks) (p : Path) : Option MarkText :=
  (m.find? (fun q => q.1 == p)).map (fun q => q.2)

/-- Observable calls to external collaborators: a size probe
(os.path.getsize during the zero size check), a resolution probe
(mediainfo), an encoder run (subprocess.run on the built ffmpeg argument
list) and a notification. -/
inductive Ev where
  | statSize (p : Path)
  | probe (p : Path)
  | encode (args : List String)
  | notify (msg title : String)
  deriving DecidableEq, Repr

structure St where
  marks : Marks
  script : List Bool
  trace : List Ev
  deriving DecidableEq, Repr

/-- Outcome of a stateful step: a normal return, the ItemProcessed control
exception, or any other Python exception. -/
inductive POut (α : Type) where
  | ok : α → POut α
  | item : String → POut α
  | exn : String → POut α
  deriving DecidableEq, Repr

def PyM (α : Type) : Type := St → St × POut α

instance : Monad PyM where
  pure a := fun s => (s, POut.ok a)
  bind m f := fun s =>
    match m s with
    | (s1, POut.ok a) => f a s1
    | (s1, POut.item e) => (s1, POut.item e)
    | (s1, POut.exn e) => (s1, POut.exn e)

def emit (e : Ev) : PyM Unit :=
  fun s => ({ s with trace := s.trace ++ [e] }, POut.ok ())

def writeMark (p : Path) (t : MarkText) : PyM Unit :=
  fun s => ({ s with marks := markSet s.marks p t }, POut.ok ())

def raiseItem {α : Type} (m : String) : PyM α := fun s => (s, POut.item m)

def raiseExn {α : Type} (m : String) : PyM α := fun s => (s, POut.exn m)

def getMarks : PyM Marks := fun s => (s, POut.ok s.marks)

/-- Outcome of the next external encoder run, drawn from the script; an
exhausted script means the run returns normally. -/
def popScript : PyM Bool :=
  fun s =>
    match s.script with
    | [] => (s, POut.ok true)
    | b :: rest => ({ s with script := rest }, POut.ok b)

def liftE {α : Type} : Except String α → PyM α
  | .ok a => pure a
  | .error e => raiseExn e

/-! ### Filesystem queries against the static tree plus the markers -/

def entFindDir : PEntries → String → Option PDir
  | .pnil, _ => none
  | .pdir nm d rest, n => if nm == n then some d else entFindDir rest n
  | .pfile _ _ rest, n => entFindDir rest n

def entFindFile : PEntries → String → Option VInfo
  | .pnil, _ => none
  | .pdir _ _ rest, n => entFindFile rest n
  | .pfile nm i rest, n => if nm == n then some i else entFindFile rest n

def dirLookup : PDir → Path → Option PDir
  | d, [] => some d
  | .node _ ents, n :: rest =>
    match entFindDir ents n with
    | some d => dirLookup d rest
    | none => none

def fileLookup (fs : PDir) : Path → Option VInfo
  | [] => none
  | p =>
    match dirLookup fs p.dropLast with
    | some (.node _ ents) => entFindFile ents (p.getLastD "")
    | none => none

def entNames : PEntries → List String
  | .pnil => []
  | .pdir nm _ rest => nm :: entNames rest
  | .pfile nm _ rest => nm :: entNames rest

/-- Marker files sitting directly inside directory p (their basenames). -/
def marksIn (m : Marks) (p : Path) : List String :=
  m.filterMap (fun q =>
    if q.1.dropLast == p && q.1 != ([] : Path) then some (q.1.getLastD "") else none)

/-- os.path.exists: a static entry or a written marker. -/
def pyExists (fs : PDir) (m : Marks) (p : Path) : Bool :=
  markHas m p || (dirLookup fs p).isSome || (fileLookup fs p).isSome

def isDirB (fs : PDir) (p : Path) : Bool := (dirLookup fs p).isSome

def isFileB (fs : PDir) (m : Marks) (p : Path) : Bool :=
  (fileLookup fs p).isSome || markHas m p

/-- os.listdir: the static entries in order, then the marker files written
into that directory.  A missing directory raises. -/
def listdirM (fs : PDir) (p : Path) : PyM (List String) :=
  fun s =>
    match dirLookup fs p with
    | some (.node _ ents) => (s, POut.ok (entNames ents ++ marksIn s.marks p))
    | none => (s, POut.exn "NotADirectoryError")

/-- os.path.getsize, preceded by no event of its own in the source but the
call itself is an observable stat of the file. -/
def getsizeM (fs : PDir) (p : Path) : PyM Nat := do
  emit (.statSize p)
  match fileLookup fs p with
  | some i => pure i.size
  | none => raiseExn "OSError: getsize"

/-- VideoHelp.GetResolution: run the prober and pick the video track
dimensions; a file without video track raises ValueError, a failed probe
raises while decoding the output. -/
def GetResolution (fs : PDir) (p : Path) : PyM (Nat × Nat) := do
  emit (.probe p)
  match fileLookup fs p with
  | some i =>
    match i.dims with
    | some wh => pure wh
    | none => raiseExn "ValueError: video file does not have a resolution"
  | none => raiseExn "mediainfo probe failed"

/-- ConvyConfig.SendNotification: pushover delivery with every exception
swallowed, so only the emission of the event is observable. -/
def SendNotification (msg title : String) : PyM Unit := emit (.notify msg title)

/-! ### VideoHelp.BuildFfmpegCommand and the per pass command assembly -/

def keyOrErr (d : Dict) (k : String) : Except String String :=
  match dictGet d k with
  | some v => .ok v
  | none => .error ("KeyError: " ++ k)

def devnullStr : String := "/dev/null"

/-- int() applied to a settings string. -/
def pyParseInt (s : String) : Option Int :=
  if s.startsWith "-" then ((s.drop 1).toNat?).map (fun n => -(n : Int))
  else s.toNat?.map (fun n => (n : Int))

/-- VideoHelp.BuildFfmpegCommand.  Called once per output file; on the
first call the fixed header is placed in front.  The hardware branch
(hevc_nvenc) appends the codec arguments; the software branch formats a
pass option referencing the name i which is not defined inside that static
method, so after reading the bitrate and preset it raises a NameError.
Each call ends by appending this output target: the discard sink when
passCnt is 1, the real destination file otherwise. -/
def BuildFfmpegCommand (args : List String) (srcfile destfile : Path)
    (settings : Dict) (passCnt : Nat) : Except String (List String) := do
  let args :=
    if args.length = 0 then
      args ++ ["ffmpeg", "-y", "-loglevel", "warning", "-i", pathStr srcfile]
    else args
  let codec ← keyOrErr settings "video.codec"
  let args ←
    if codec == "hevc_nvenc" then do
      let br ← keyOrErr settings "video.bitrate"
      let pr ← keyOrErr settings "video.preset"
      pure (args ++ ["-c:v", codec] ++ ["-b:v", br] ++ ["-preset", pr] ++
        ["-rc", "vbr_hq"] ++ ["-rc-lookahead", "32"] ++
        ["-multipass", "fullres"] ++ ["-spatial_aq", "1"] ++
        ["-temporal_aq", "1"] ++ ["-aq-strength", "8"])
    else do
      let _br ← keyOrErr settings "video.bitrate"
      let _pr ← keyOrErr settings "video.preset"
      Except.error "NameError: name i is not defined"
  let args := args ++ ["-map", "0:v:0"] ++ ["-map", "0:a:0"]
  let args := args ++
    (match dictGet settings "video.params" with
     | some ps => ps.splitOn " "
     | none => [])
  let fmt ← keyOrErr settings "output.format"
  let args := args ++ ["-f", fmt]
  pure (args ++ [if passCnt = 1 then devnullStr else pathStr destfile])

/-- The inner rung loop of ConvyConfig.ProcessVideo for one pass: walk the
settings list, check the format, derive the destination and dot file paths,
skip rungs whose dot file already exists, and aggregate the others into one
command while collecting the dot files to write. -/
def buildPassGo (fs : PDir) (m : Marks) (path : Path) (passCnt : Nat) :
    List Dict → List String → List Path → Except String (List String × List Path)
  | [], args, dones => .ok (args, dones)
  | settings :: rest, args, dones => do
    let fmt ← keyOrErr settings "output.format"
    if fmt == "matroska" then do
      let res ← keyOrErr settings "resolution"
      let dest := GetFileResolutionName path res
      let done := DotFileResolutionExists path res
      if pyExists fs m done then buildPassGo fs m path passCnt rest args dones
      else do
        let args2 ← BuildFfmpegCommand args path dest settings passCnt
        buildPassGo fs m path passCnt rest args2 (dones ++ [done])
    else .error "unknown output format"

def buildPass (fs : PDir) (m : Marks) (path : Path) (lst : List Dict)
    (passCnt : Nat) : Except String (List String × List Path) :=
  buildPassGo fs m path passCnt lst [] []

/-! #### Normal form of the aggregated command

The following decomposition of BuildFfmpegCommand and of the per pass loop
is used to state and prove properties of the assembled commands: the fixed
header, the settings dependent core of one rung, and the list of still
pending rungs of a settings list (each with its resolution and core). -/

def ffmpegHeader (src : Path) : List String :=
  ["ffmpeg", "-y", "-loglevel", "warning", "-i", pathStr src]

/-- The settings dependent middle of one BuildFfmpegCommand call: codec
block (or the NameError of the software branch), stream maps, extra
parameters and output format. -/
def ffCore (settings : Dict) : Except String (List String) := do
  let codec ← keyOrErr settings "video.codec"
  let core ←
    if codec == "hevc_nvenc" then do
      let br ← keyOrErr settings "video.bitrate"
      let pr ← keyOrErr settings "video.preset"
      pure (["-c:v", codec] ++ ["-b:v", br] ++ ["-preset", pr] ++
        ["-rc", "vbr_hq"] ++ ["-rc-lookahead", "32"] ++
        ["-multipass", "fullres"] ++ ["-spatial_aq", "1"] ++
        ["-temporal_aq", "1"] ++ ["-aq-strength", "8"])
    else do
      let _br ← keyOrErr settings "video.bitrate"
      let _pr ← keyOrErr settings "video.preset"
      Except.error "NameError: name i is not defined"
  let core := core ++ ["-map", "0:v:0"] ++ ["-map", "0:a:0"]
  let core := core ++
    (match dictGet settings "video.params" with
     | some ps => ps.splitOn " "
     | none => [])
  let fmt ← keyOrErr settings "output.format"
  pure (core ++ ["-f", fmt])

/-- The rungs of a settings list whose dot file does not exist yet, in
order, each with its resolution and its command core. -/
def pendingCores (fs : PDir) (m : Marks) (path : Path) :
    List Dict → Except String (List (Dict × String × List String))
  | [] => .ok []
  | s :: rest => do
    let fmt ← keyOrErr s "output.format"
    if fmt == "matroska" then do
      let res ← keyOrErr s "resolution"
      if pyExists fs m (DotFileResolutionExists path res) then
        pendingCores fs m path rest
      else do
        let core ← ffCore s
        (pendingCores fs m path rest).map (fun l => (s, res, core) :: l)
    else .error "unknown output format"

/-- The per rung command segments of pass p: each pending core followed by
its output argument, the discard sink exactly on pass 1. -/
def blocksOf (path : Path) (p : Nat)
    (pcs : List (Dict × String × List String)) : List String :=
  (pcs.map (fun t => t.2.2 ++
    [if p = 1 then devnullStr else pathStr (GetFileResolutionName path t.2.1)])).flatten

def argsOfGo (path : Path) (p : Nat) (args0 : List String) :
    List (Dict × String × List String) → List String
  | [] => args0
  | t :: rest =>
    (if args0.length = 0 then args0 ++ ffmpegHeader path else args0) ++
      blocksOf path p (t :: rest)

/-- The full aggregated command of pass p for a list of pending rungs. -/
def passArgsOf (path : Path) (p : Nat)
    (pcs : List (Dict × String × List String)) : List String :=
  argsOfGo path p [] pcs

/-- The dot files of a list of pending rungs. -/
def donesOf (path : Path) (pcs : List (Dict × String × List String)) : List Path :=
  pcs.map (fun t => DotFileResolutionExists path t.2.1)

def writeAll (dones : List Path) (t : MarkText) : PyM Unit :=
  match dones with
  | [] => pure ()
  | d :: rest => do
    writeMark d t
    writeAll rest t

/-- The pure effect of writeAll on the marker set. -/
def markSetAll (m : Marks) (ds : List Path) (t : MarkText) : Marks :=
  ds.foldl (fun m d => markSet m d t) m

/-- The failure arm of one ProcessVideo pass: ffmpeg raised, so one
failure marker is written per pending rung, a notification is sent and
ItemProcessed is raised. -/
def pvFail (name : String) (i : Nat) (args : List String)
    (dones : List Path) : PyM Unit := do
  writeAll dones (.rungFailed (i + 1) args)
  SendNotification ("Failed pass " ++ toString (i + 1) ++ " on item "
    ++ name) ("Failed " ++ name)
  raiseItem ("Failed pass " ++ toString (i + 1) ++ " on " ++ name
    ++ " but with exception")

/-- The final pass success arm: one completion marker per pending rung, a
notification, and ItemProcessed. -/
def pvFinish (name : String) (path : Path) (args : List String)
    (dones : List Path) : PyM Unit := do
  writeAll dones (.rungCompleted args)
  SendNotification ("Completed item " ++ name) ("Done " ++ name)
  raiseItem ("Finished " ++ pathStr path)

/-- The non final pass success arm: notify and continue with the
remaining passes. -/
def pvCont (name : String) (i : Nat) (next : PyM Unit) : PyM Unit := do
  SendNotification ("Pass " ++ toString (i + 1) ++ " done on item "
    ++ name) ("Pass " ++ toString (i + 1) ++ " of " ++ name)
  next

/-- One pass of the ConvyConfig.ProcessVideo loop (the body of the for
loop at pass index i + 1, with the continuation for the remaining passes
passed explicitly): rebuild the aggregated command from the current
markers; if nothing is pending, return (all rungs done); otherwise run the
external encoder and dispatch on its outcome and on whether this is the
final pass. -/
def pvStep (fs : PDir) (name : String) (path : Path) (lst : List Dict)
    (i : Nat) (final : Bool) (next : PyM Unit) : PyM Unit := do
  let m ← getMarks
  match buildPass fs m path lst (i + 1) with
  | .error e => raiseExn e
  | .ok (args, dones) =>
    if dones.length = 0 then pure ()
    else do
      emit (.encode args)
      let okRun ← popScript
      if !okRun then pvFail name i args dones
      else if final then pvFinish name path args dones
      else pvCont name i next

/-- The pass loop of ConvyConfig.ProcessVideo: rem is the number of passes
still to run (so the current pass index is i + 1 and rem = passes - i);
the final pass is the one with rem = 1. -/
def pvLoop (fs : PDir) (name : String) (path : Path) (lst : List Dict) :
    Nat → Nat → PyM Unit
  | 0, _ => pure ()
  | rem + 1, i =>
    pvStep fs name path lst i (rem == 0) (pvLoop fs name path lst rem (i + 1))

/-- ConvyConfig.ProcessVideo: refuse settings without video.passes, parse
the pass count from the first settings dict, then run the pass loop. -/
def ProcessVideo (fs : PDir) (name : String) (path : Path)
    (lst : List Dict) : PyM Unit :=
  match lst with
  | [] => raiseExn "IndexError: list index out of range"
  | s0 :: _ =>
    if !(dictHas s0 "video.passes") then
      raiseExn "Not handling single pass conversion yet"
    else
      match pyParseInt ((dictGet s0 "video.passes").getD "") with
      | none => raiseExn "ValueError: invalid literal for int"
      | some passes => pvLoop fs name path lst passes.toNat 0

/-! ### The traversal: ProcessMovie, ProcessTV, Process, processdirs

Each processing function receives the chain of parsed configs from the
current node up to the root (self first), standing in for the parent
pointers of the source. -/

/-- Read of a multipleresolution flag such as
self.Config[feature][multipleresolution]; a missing section or key is a
KeyError. -/
def multiFlag (cfg : CfgFile) (sect : String) : Except String Bool :=
  match cfgSection cfg sect with
  | none => .error ("KeyError: " ++ sect)
  | some d =>
    match dictGet d "multipleresolution" with
    | none => .error "KeyError: multipleresolution"
    | some v => .ok (v.toLower == "true")

/-- The per file body of the ProcessMovie loop: pick the feature or special
flag by the name prefix, skip zero size files before any probe, otherwise
probe, classify, build the per rung settings and hand them to
ProcessVideo. -/
def pmBody (fs : PDir) (chain : List CfgFile) (path : Path) (name : String)
    (item : String) : PyM Unit := do
  let subp := path ++ [item]
  let m ← getMarks
  if isFileB fs m subp then do
    let multi ← liftE
      (if item.startsWith name then multiFlag (chain.headD []) "feature"
       else multiFlag (chain.headD []) "special")
    let size ← getsizeM fs subp
    if size = 0 then pure ()
    else do
      let wh ← GetResolution fs subp
      let res ← liftE (GuessResolution wh.1 wh.2)
      let settings : Dict :=
        [("resolution", res), ("width", toString wh.1), ("height", toString wh.2)]
      let sets ← liftE (buildSets chain settings res multi)
      ProcessVideo fs name subp sets
  else pure ()

def pmLoop (fs : PDir) (chain : List CfgFile) (path : Path) (name : String) :
    List String → PyM Unit
  | [] => pure ()
  | item :: rest => do
    pmBody fs chain path name item
    pmLoop fs chain path name rest

/-- ConvyConfig.ProcessMovie: list the item directory, keep the video
files, and walk them in sorted order. -/
def ProcessMovie (fs : PDir) (chain : List CfgFile) (path : Path) : PyM Unit := do
  let name := path.getLastD ""
  let items ← listdirM fs path
  let items := FilterFilesForVideos items
  pmLoop fs chain path name items

/-- The body of the _ProcessTV_SeasonEpisode function: skip zero size
episodes before any probe, otherwise probe, classify, read the episode
flag, build the per rung settings and hand them to ProcessVideo (under the
show name; the computed episode path name is assigned but not passed). -/
def ProcessTVSeasonEpisode (fs : PDir) (chain : List CfgFile) (path : Path)
    (name season episode : String) : PyM Unit := do
  let epath := path ++ [season, episode]
  let size ← getsizeM fs epath
  if size = 0 then pure ()
  else do
    let wh ← GetResolution fs epath
    let res ← liftE (GuessResolution wh.1 wh.2)
    let settings : Dict :=
      [("resolution", res), ("width", toString wh.1), ("height", toString wh.2)]
    let multi ← liftE (multiFlag (chain.headD []) "episode")
    let sets ← liftE (buildSets chain settings res multi)
    ProcessVideo fs name epath sets

/-- The body of the _ProcessTV_SeasonSpecial function; the special flag is
read and the composed name is passed to ProcessVideo. -/
def ProcessTVSeasonSpecial (fs : PDir) (chain : List CfgFile) (path : Path)
    (name season specialdir specialName : String) : PyM Unit := do
  let fpath := path ++ [season, specialdir, specialName]
  let size ← getsizeM fs fpath
  if size = 0 then pure ()
  else do
    let wh ← GetResolution fs fpath
    let res ← liftE (GuessResolution wh.1 wh.2)
    let settings : Dict :=
      [("resolution", res), ("width", toString wh.1), ("height", toString wh.2)]
    let multi ← liftE (multiFlag (chain.headD []) "special")
    let sets ← liftE (buildSets chain settings res multi)
    let newname := name ++ "/" ++ season ++ "/" ++ specialdir ++ "/" ++ specialName
    ProcessVideo fs newname fpath sets

def epLoop (fs : PDir) (chain : List CfgFile) (path : Path)
    (name season : String) : List String → PyM Unit
  | [] => pure ()
  | ep :: rest => do
    ProcessTVSeasonEpisode fs chain path name season ep
    epLoop fs chain path name season rest

def spLoop (fs : PDir) (chain : List CfgFile) (path : Path)
    (name season specialdir : String) : List String → PyM Unit
  | [] => pure ()
  | sp :: rest => do
    ProcessTVSeasonSpecial fs chain path name season specialdir sp
    spLoop fs chain path name season specialdir rest

def spDirLoop (fs : PDir) (chain : List CfgFile) (path : Path)
    (name season : String) : List String → PyM Unit
  | [] => pure ()
  | specialdir :: rest => do
    let spath := path ++ [season, specialdir]
    let specials ← listdirM fs spath
    let specials := FilterFilesForVideos specials
    spLoop fs chain path name season specialdir specials
    spDirLoop fs chain path name season rest

/-- ConvyConfig._ProcessTV_Season: split the season listing into special
directories and episode files, process the episodes first, then the
specials inside each special directory. -/
def ProcessTVSeason (fs : PDir) (chain : List CfgFile) (path : Path)
    (name season : String) : PyM Unit := do
  let fpath := path ++ [season]
  let items ← listdirM fs fpath
  let m ← getMarks
  let specialdirs := items.filter (fun s => isDirB fs (fpath ++ [s]))
  let episodes := items.filter (fun s => isFileB fs m (fpath ++ [s]))
  let episodes := FilterFilesForVideos episodes
  epLoop fs chain path name season episodes
  spDirLoop fs chain path name season specialdirs

/-- The body of the season loop for one season: a season whose dot entry
was listed is skipped, otherwise it is processed and its marker written. -/
def seasonBody (fs : PDir) (chain : List CfgFile) (path : Path)
    (name : String) (dots : List String) (season : String) : PyM Unit :=
  if dots.contains ("." ++ season) then pure ()
  else
    ProcessTVSeason fs chain path name season >>= fun _ =>
      writeMark (path ++ ["." ++ season]) .seasonMark

def seasonLoop (fs : PDir) (chain : List CfgFile) (path : Path)
    (name : String) (dots : List String) : List String → PyM Unit
  | [] => pure ()
  | season :: rest => do
    seasonBody fs chain path name dots season
    seasonLoop fs chain path name dots rest

/-- ConvyConfig.ProcessTV: list the series directory, collect the dot
entries as already processed seasons, and walk every season directory,
writing the season marker after a season finishes. -/
def ProcessTV (fs : PDir) (chain : List CfgFile) (path : Path) : PyM Unit := do
  let name := path.getLastD ""
  let listing ← listdirM fs path
  let dots := listing.filter (fun s => s.startsWith ".")
  let seasons := listing.filter (fun s => isDirB fs (path ++ [s]))
  seasonLoop fs chain path name dots seasons

/-- The body of the item loop of ConvyConfig.Process for one item: skip it
when its top level dot marker exists, otherwise process it as a movie or a
series and write the item completed marker once processing returns
normally. -/
def processItemsBody (fs : PDir) (chain : List CfgFile) (cfg : CfgFile)
    (ipath : Path) : PyM Unit := do
  let m ← getMarks
  let done := GetDotFileName ipath
  if pyExists fs m done then pure ()
  else
    (if isMode cfg "movie" then ProcessMovie fs chain ipath
     else ProcessTV fs chain ipath) >>= fun _ =>
      writeMark done .itemCompleted

/-- The item loop of ConvyConfig.Process for movie and tv modes. -/
def processItems (fs : PDir) (chain : List CfgFile) (cfg : CfgFile) :
    List (Char × String × Path) → PyM Unit
  | [] => pure ()
  | (_, _, ipath) :: rest => do
    processItemsBody fs chain cfg ipath
    processItems fs chain cfg rest

mutual
/-- ConvyConfig.Process: recurse through children in subdir mode, walk the
items in movie and tv modes, and raise NotImplementedError otherwise
(soundtrack mode included). -/
def Process (fs : PDir) (anc : List CfgFile) : Node → PyM Unit
  | .mk cfg items children =>
    if isMode cfg "subdir" then processChildren fs (cfg :: anc) children
    else if isMode cfg "movie" || isMode cfg "tv" then
      processItems fs (cfg :: anc) cfg items
    else raiseExn "Unknown config type"

def processChildren (fs : PDir) (anc : List CfgFile) : NodeList → PyM Unit
  | .nil => pure ()
  | .cons c rest => do
    Process fs anc c
    processChildren fs anc rest
end

/-- Convy.processdirs: run Process for every registered root in order; an
ItemProcessed exception ends the cycle (the function returns), any other
exception is re raised. -/
def processdirs (fs : PDir) : List Node → PyM Unit
  | [] => pure ()
  | root :: rest => fun s =>
    match Process fs [] root s with
    | (s1, POut.ok _) => processdirs fs rest s1
    | (s1, POut.item _) => (s1, POut.ok ())
    | (s1, POut.exn e) => (s1, POut.exn e)

/-! ### Spec side definition for the ladder refinement claim -/

/-- Modelled from the spec (section 4.3 ResolutionLadder): ExpandLadder
(tier, multi) is the singleton of the tier when multi is false, and the
descending chain ending at sd when multi is true.  This is the comparison
target for the ladder claims; the program side list is ladderOf. -/
def ExpandLadderSpec (tier : String) (multi : Bool) : List String :=
  if multi then
    if tier = "4k" then ["4k", "1k", "hd", "sd"]
    else if tier = "1k" then ["1k", "hd", "sd"]
    else if tier = "hd" then ["hd", "sd"]
    else ["sd"]
  else [tier]

/-! ### Observables over traces -/

def isEncodeEv : Ev → Bool
  | .encode _ => true
  | _ => false

def isExamineEv : Ev → Bool
  | .statSize _ => true
  | .probe _ => true
  | _ => false

def hasEncode (t : List Ev) : Bool := t.any isEncodeEv

/-- True when no item examination (size stat or probe) happens after an
encoder invocation in the trace. -/
def noExamineAfterEncode : List Ev → Bool
  | [] => true
  | .encode _ :: rest => rest.all (fun e => !isExamineEv e)
  | _ :: rest => noExamineAfterEncode rest

/-- Trace discipline of a computation: it only appends events to the
trace, the appended segment never examines an item after an encoder
invocation, and a normal return means no encoder invocation happened in
it.  This is the invariant carried through the traversal to show that one
cycle stops after real work. -/
def TraceP {α : Type} (m : PyM α) : Prop :=
  ∀ st, ∃ Δ, (m st).1.trace = st.trace ++ Δ ∧
    noExamineAfterEncode Δ = true ∧
    (∀ a, (m st).2 = POut.ok a → hasEncode Δ = false)

/-- The encoder invocations of a trace, in order. -/
def encodeArgs (t : List Ev) : List (List String) :=
  t.filterMap (fun e =>
    match e with
    | .encode a => some a
    | _ => none)

/-! ### Concrete fixtures used by counterexamples and evaluations -/

/-- A movie root with hd source material and multi resolution on: the
descriptor declares everything the encoder needs, video.passes included. -/
def cfgC5 : CfgFile :=
  [("main", [("mode", "movie")]),
   ("feature", [("multipleresolution", "true")]),
   ("special", [("multipleresolution", "true")]),
   ("settings", [("video.codec", "hevc_nvenc"), ("video.bitrate", "4M"),
     ("video.preset", "slow"), ("video.passes", "2"), ("output.format", "matroska")])]

def fsC5 : PDir :=
  .node (some cfgC5)
    (.pdir "H" (.node none (.pfile "H.mkv" ⟨100, some (1080, 720)⟩ .pnil)) .pnil)

def nodeC5 : Node := .mk cfgC5 [('d', "H", ["H"])] .nil

/-- Both rungs of the hd ladder already carry completion markers. -/
def marksC5 : Marks :=
  [(["H", "H", ". hd.mkv"], .rungCompleted []),
   (["H", "H", ". sd.mkv"], .rungCompleted [])]

/-- A movie root asking for three encoding passes, single resolution. -/
def cfgC4 : CfgFile :=
  [("main", [("mode", "movie")]),
   ("feature", [("multipleresolution", "false")]),
   ("special", [("multipleresolution", "false")]),
   ("settings", [("video.codec", "hevc_nvenc"), ("video.bitrate", "4M"),
     ("video.preset", "slow"), ("video.passes", "3"), ("output.format", "matroska")])]

def fsC4 : PDir :=
  .node (some cfgC4)
    (.pdir "M" (.node none (.pfile "M.mkv" ⟨100, some (1920, 1080)⟩ .pnil)) .pnil)

def nodeC4 : Node := .mk cfgC4 [('d', "M", ["M"])] .nil

/-- A movie item with two video files; the first (in sorted order) probes
to an unrecognized dimension pair, the second is a recognized 1k file. -/
def fsC7 : PDir :=
  .node (some cfgC4)
    (.pdir "M" (.node none (.pfile "A.mkv" ⟨10, some (640, 360)⟩
      (.pfile "B.mkv" ⟨10, some (1920, 1080)⟩ .pnil))) .pnil)

def nodeC7 : Node := .mk cfgC4 [('d', "M", ["M"])] .nil

/-- A movie item whose only candidate file has size zero. -/
def fsC10 : PDir :=
  .node (some cfgC4)
    (.pdir "Z" (.node none (.pfile "Z.mkv" ⟨0, some (1920, 1080)⟩ .pnil)) .pnil)

def nodeC10 : Node := .mk cfgC4 [('d', "Z", ["Z"])] .nil

/-- A single rung settings dict carrying everything the encoder needs,
used to exercise the pass failure path of ProcessVideo. -/
def s6C6 : Dict :=
  [("resolution", "1k"), ("output.format", "matroska"),
   ("video.codec", "hevc_nvenc"), ("video.bitrate", "4M"),
   ("video.preset", "slow"), ("video.passes", "3")]

/-- The command core of s6C6 as ffCore assembles it. -/
def coreC6 : List String :=
  ["-c:v", "hevc_nvenc", "-b:v", "4M", "-preset", "slow", "-rc", "vbr_hq",
   "-rc-lookahead", "32", "-multipass", "fullres", "-spatial_aq", "1",
   "-temporal_aq", "1", "-aq-strength", "8", "-map", "0:v:0",
   "-map", "0:a:0", "-f", "matroska"]

def pcsC6 : List (Dict × String × List String) := [(s6C6, "1k", coreC6)]

/-- The non dot sub directories of a listing, with their trees: exactly
the entries _scansubdir recurses into in subdir mode, in listing order. -/
def dirEnts : PEntries → List (String × PDir)
  | .pnil => []
  | .pfile _ _ r => dirEnts r
  | .pdir nm d r =>
    if nm.startsWith "." then dirEnts r else (nm, d) :: dirEnts r

/-- A subdir root whose only sub directory has no descriptor file. -/
def cfgSubC1 : CfgFile := [("main", [("mode", "subdir")])]

def exC1 : PDir :=
  .node (some cfgSubC1) (.pdir "movies" (.node none .pnil) .pnil)

/-- A subdir root whose only sub directory has a descriptor with an
unrecognized mode. -/
def exC1bad : PDir :=
  .node (some cfgSubC1)
    (.pdir "movies" (.node (some [("main", [("mode", "music")])]) .pnil) .pnil)

/-! ## Lemmas about dictionaries and settings resolution -/

theorem dictGet_nil (k : String) : dictGet [] k = none := rfl

theorem find?_map_upd_ne (d : Dict) (k v k2 : String) (hne : k ≠ k2) :
    (d.map (fun kv => if kv.1 == k then (k, v) else kv)).find?
        (fun kv => kv.1 == k2) =
      d.find? (fun kv => kv.1 == k2) := by
  induction d with
  | nil => rfl
  | cons hd tl ih =>
    rw [List.map_cons]
    by_cases h1 : hd.1 = k
    · have hf : (if (hd.1 == k) = true then (k, v) else hd) = (k, v) := by simp [h1]
      rw [hf]
      rw [List.find?_cons_of_neg _ (by simp [hne])]
      rw [List.find?_cons_of_neg _ (by simp [h1, hne])]
      exact ih
    · have hf : (if (hd.1 == k) = true then (k, v) else hd) = hd := by simp [h1]
      rw [hf]
      by_cases h2 : hd.1 = k2
      · rw [List.find?_cons_of_pos _ (by simp [h2]), List.find?_cons_of_pos _ (by simp [h2])]
      · rw [List.find?_cons_of_neg _ (by simp [h2]), List.find?_cons_of_neg _ (by simp [h2])]
        exact ih

theorem find?_map_upd_eq (d : Dict) (k v : String) :
    (d.map (fun kv => if kv.1 == k then (k, v) else kv)).find?
        (fun kv => kv.1 == k) =
      (d.find? (fun kv => kv.1 == k)).map (fun _ => (k, v)) := by
  induction d with
  | nil => rfl
  | cons hd tl ih =>
    rw [List.map_cons]
    by_cases h1 : hd.1 = k
    · have hf : (if (hd.1 == k) = true then (k, v) else hd) = (k, v) := by simp [h1]
      rw [hf]
      rw [List.find?_cons_of_pos _ (by simp)]
      rw [List.find?_cons_of_pos _ (by simp [h1])]
      rfl
    · have hf : (if (hd.1 == k) = true then (k, v) else hd) = hd := by simp [h1]
      rw [hf]
      rw [List.find?_cons_of_neg _ (by simp [h1])]
      rw [List.find?_cons_of_neg _ (by simp [h1])]
      exact ih

theorem dictGet_dictSet (d : Dict) (k v k2 : String) :
    dictGet (dictSet d k v) k2 = if k = k2 then some v else dictGet d k2 := by
  unfold dictSet
  by_cases h : dictHas d k = true
  · rw [if_pos h]
    by_cases he : k = k2
    · subst he
      rw [if_pos rfl]
      unfold dictGet
      rw [find?_map_upd_eq]
      unfold dictHas at h
      cases hf : d.find? (fun kv => kv.1 == k) with
      | none => rw [hf] at h; simp at h
      | some kv => rfl
    · rw [if_neg he]
      unfold dictGet
      rw [find?_map_upd_ne d k v k2 he]
  · rw [if_neg h]
    unfold dictGet
    rw [List.find?_append]
    by_cases he : k = k2
    · subst he
      rw [if_pos rfl]
      unfold dictHas at h
      cases hf : d.find? (fun kv => kv.1 == k) with
      | some kv => rw [hf] at h; simp at h
      | none =>
        rw [List.find?_cons_of_pos _ (by simp)]
        rfl
    · rw [if_neg he]
      have h1 : List.find? (fun kv => kv.1 == k2) [(k, v)] = none := by
        simp [he]
      rw [h1]
      cases d.find? (fun kv => kv.1 == k2) <;> rfl

theorem dictGet_foldl (l : List (String × String)) (d : Dict) (k : String) :
    dictGet (l.foldl (fun s kv => dictSet s kv.1 kv.2) d) k =
      match l.reverse.find? (fun kv => kv.1 == k) with
      | some kv => some kv.2
      | none => dictGet d k := by
  induction l generalizing d with
  | nil => simp
  | cons hd tl ih =>
    rw [List.foldl_cons, ih, List.reverse_cons, List.find?_append]
    cases h : tl.reverse.find? (fun kv => kv.1 == k) with
    | some kv => rfl
    | none =>
      by_cases he : hd.1 = k
      · rw [List.find?_cons_of_pos _ (by simp [he])]
        rw [dictGet_dictSet]
        simp [he]
      · rw [List.find?_cons_of_neg _ (by simp [he])]
        rw [dictGet_dictSet]
        simp [he]

theorem find?_flatten_firstApplicable (chain : List CfgFile) (res k : String) :
    (((chain.map (fun c =>
          sectionItems c ("settings-" ++ res) ++ sectionItems c "settings")).flatten).find?
        (fun kv => kv.1 == k)).map (fun kv => kv.2) =
      firstApplicable chain res k := by
  induction chain with
  | nil => rfl
  | cons c rest ih =>
    rw [List.map_cons, List.flatten_cons, List.find?_append]
    unfold firstApplicable applicableLookup
    cases h : (sectionItems c ("settings-" ++ res) ++ sectionItems c "settings").find?
        (fun kv => kv.1 == k) with
    | some kv => rfl
    | none => simpa using ih

theorem dictGet_GetSettings (chain : List CfgFile) (settings : Dict) (k : String) :
    dictGet (GetSettings chain settings) k =
      match firstApplicable chain ((dictGet settings "resolution").getD "") k with
      | some v => some v
      | none => dictGet settings k := by
  unfold GetSettings
  rw [dictGet_foldl, List.reverse_reverse]
  rw [← find?_flatten_firstApplicable chain ((dictGet settings "resolution").getD "") k]
  cases ((chain.map (fun c =>
      sectionItems c ("settings-" ++ ((dictGet settings "resolution").getD "")) ++
        sectionItems c "settings")).flatten).find? (fun kv => kv.1 == k) with
  | none => rfl
  | some kv => rfl

theorem find?_section_none (c : CfgFile) (name K : String)
    (hn : c.all (fun sec => sec.2.all (fun kv => kv.1 != K)) = true) :
    (sectionItems c name).find? (fun kv => kv.1 == K) = none := by
  apply List.find?_eq_none.2
  intro kv hkv
  unfold sectionItems cfgSection at hkv
  cases hf : c.find? (fun s => s.1 == name) with
  | none => rw [hf] at hkv; simp at hkv
  | some sec =>
    rw [hf] at hkv
    simp at hkv
    have hmem : sec ∈ c := List.mem_of_find?_eq_some hf
    have := (List.all_eq_true.1 hn) sec hmem
    have h2 : kv.1 ≠ K := by simpa using (List.all_eq_true.1 this) kv hkv
    simp [h2]

theorem firstApplicable_noResKey (chain : List CfgFile) (res : String)
    (hn : chainNoResKey chain = true) :
    firstApplicable chain res "resolution" = none := by
  induction chain with
  | nil => rfl
  | cons c rest ih =>
    unfold chainNoResKey at hn
    rw [List.all_cons, Bool.and_eq_true] at hn
    unfold firstApplicable applicableLookup
    rw [List.find?_append, find?_section_none c _ _ hn.1,
      find?_section_none c _ _ hn.1]
    exact ih (by unfold chainNoResKey; exact hn.2)

/-- Under any real configuration (no section binds the key resolution),
GetSettings leaves the resolution entry of the dict unchanged. -/
theorem res_GetSettings (chain : List CfgFile) (d : Dict)
    (hn : chainNoResKey chain = true) :
    dictGet (GetSettings chain d) "resolution" = dictGet d "resolution" := by
  rw [dictGet_GetSettings, firstApplicable_noResKey chain _ hn]

/-- C3: if an ancestor declares k=a and the node on which settings are
resolved declares k=b in a section applicable to the tier (its tier
specific or generic settings section), then GetSettings on that node yields
k=b: the deeper value wins. -/
theorem c3_override_law (h : CfgFile) (rest : List CfgFile) (settings : Dict)
    (res k a b : String) (anc : CfgFile)
    (hres : dictGet settings "resolution" = some res)
    (hdesc : applicableLookup h res k = some b)
    (_hanc : anc ∈ rest) (_hanck : applicableLookup anc res k = some a) :
    dictGet (GetSettings (h :: rest) settings) k = some b := by
  rw [dictGet_GetSettings, hres]
  rw [show ((some res).getD "" : String) = res from rfl]
  unfold firstApplicable
  rw [hdesc]

/-- Witness for c3_override_law at a concrete two node chain. -/
theorem c3_override_law_witness :
    dictGet (GetSettings [[("settings", [("video.bitrate", "8M")])],
      [("settings", [("video.bitrate", "4M")])]] [("resolution", "hd")])
      "video.bitrate" = some "8M" :=
  c3_override_law [("settings", [("video.bitrate", "8M")])]
    [[("settings", [("video.bitrate", "4M")])]] [("resolution", "hd")]
    "hd" "video.bitrate" "4M" "8M" [("settings", [("video.bitrate", "4M")])]
    (by decide) (by decide) (by decide) (by decide)

/-- C8 (amended): the fan out yields the spec table (singleton for
multi=false, descending chain for multi=true); every such ladder is
monotonically non increasing, and when multi is true its last element is
sd.  (With multi=false the last element is the source tier itself, which is
sd only for sd sources.) -/
theorem c8_ladder_amended (chain : List CfgFile) (settings : Dict)
    (res : String) (multi : Bool) (hn : chainNoResKey chain = true)
    (hres : dictGet settings "resolution" = some res)
    (hmem : res ∈ ["sd", "hd", "1k", "4k"]) :
    ladderOf chain settings res multi = .ok (ExpandLadderSpec res multi) ∧
    (ExpandLadderSpec res multi).Chain' (fun x y => tierRank y ≤ tierRank x) ∧
    (multi = true → (ExpandLadderSpec res multi).getLast? = some "sd") := by
  have hget : ∀ r, dictGet (GetSettings chain (dictSet settings "resolution" r))
      "resolution" = some r := by
    intro r
    rw [res_GetSettings chain _ hn, dictGet_dictSet]
    simp
  have hself : dictGet (GetSettings chain settings) "resolution" = some res := by
    rw [res_GetSettings chain _ hn, hres]
  have hmem2 : res = "sd" ∨ res = "hd" ∨ res = "1k" ∨ res = "4k" := by
    simpa using hmem
  rcases hmem2 with rfl | rfl | rfl | rfl <;> cases multi <;>
    refine ⟨?_, by simp [ExpandLadderSpec, List.chain'_cons, tierRank], by intro h; first | rfl | exact absurd h (by decide)⟩ <;>
    simp [ladderOf, buildSets, ExpandLadderSpec, Except.map, hget, hself, dictGet_dictSet]

/-- Witness for c8_ladder_amended at a concrete input. -/
theorem c8_ladder_amended_witness :
    ladderOf [] [("resolution", "hd")] "hd" true = .ok (ExpandLadderSpec "hd" true) :=
  (c8_ladder_amended [] [("resolution", "hd")] "hd" true (by decide) (by decide)
    (by decide)).1

/-- C8 counterexample to the claim as stated: for tier 4k with multi=false
the expanded ladder is the singleton 4k, whose last element is not sd, so
the expanded ladder does not always end at sd. -/
theorem c8_counterexample :
    ladderOf [] [("resolution", "4k")] "4k" false = .ok ["4k"] ∧
    (["4k"] : List String).getLast? ≠ some "sd" := by
  constructor
  · rfl
  · decide

@[simp] theorem except_bind_ok {α β : Type} (a : α) (f : α → Except String β) :
    ((Except.ok a : Except String α) >>= f) = f a := rfl

@[simp] theorem except_bind_err {α β : Type} (e : String) (f : α → Except String β) :
    ((Except.error e : Except String α) >>= f) = Except.error e := rfl

theorem scanDirs_error_iff (root : Path) :
    (ents : PEntries) →
      ((∃ e, scanDirs root ents = .error e) ↔
        (∃ nd ∈ dirEnts ents, ∃ e, scansubdir (root ++ [nd.1]) nd.2 = .error e))
  | .pnil => by simp [scanDirs, dirEnts]
  | .pfile nm i r => by
    simp only [scanDirs, dirEnts]
    exact scanDirs_error_iff root r
  | .pdir nm d r => by
    have ih := scanDirs_error_iff root r
    by_cases hdot : nm.startsWith "."
    · simp only [scanDirs, dirEnts, hdot, if_true]
      exact ih
    · simp only [scanDirs, dirEnts, hdot, if_false, Bool.false_eq_true]
      cases hs : scansubdir (root ++ [nm]) d with
      | error e =>
        simp only [except_bind_err]
        constructor
        · intro _
          exact ⟨(nm, d), by simp, e, hs⟩
        · intro _
          exact ⟨e, rfl⟩
      | ok oc =>
        cases oc with
        | none =>
          simp only [except_bind_ok]
          rw [ih]
          constructor
          · intro ⟨nd, hnd, e, he⟩
            exact ⟨nd, by simp [hnd], e, he⟩
          · intro ⟨nd, hnd, e, he⟩
            rcases List.mem_cons.1 hnd with h1 | h1
            · subst h1; rw [hs] at he; cases he
            · exact ⟨nd, h1, e, he⟩
        | some c =>
          simp only [except_bind_ok]
          constructor
          · intro ⟨e, he⟩
            cases hr : scanDirs root r with
            | error e2 =>
              have := ih.1 ⟨e2, hr⟩
              obtain ⟨nd, hnd, e3, he3⟩ := this
              exact ⟨nd, by simp [hnd], e3, he3⟩
            | ok v => rw [hr] at he; simp [Except.map] at he
          · intro ⟨nd, hnd, e, he⟩
            rcases List.mem_cons.1 hnd with h1 | h1
            · subst h1; rw [hs] at he; cases he
            · obtain ⟨e2, he2⟩ := ih.2 ⟨nd, h1, e, he⟩
              exact ⟨e2, by rw [he2]; rfl⟩

theorem scansubdir_some (root : Path) (cfg : CfgFile) (ents : PEntries) :
    scansubdir root (.node (some cfg) ents) = (Read cfg >>= fun _ =>
      if isMode cfg "subdir" then
        scanDirs root ents >>= fun children =>
          Except.ok (some (Node.mk cfg (entryItems root ents) children))
      else Except.ok (some (Node.mk cfg (entryItems root ents) NodeList.nil))) := rfl

/-- C1 (amended): building a subdir mode root fails exactly when its own
descriptor validation fails or the recursive build of some listed non dot
sub directory raises an error, and such an error propagates through
addpath so no node is registered.  A sub directory with no descriptor file
is not an error: the root builds and silently omits it (see the
counterexample). -/
theorem c1_amended (root : Path) (cfg : CfgFile) (ents : PEntries) :
    ((∃ e, scansubdir root (.node (some cfg) ents) = .error e) ↔
      ((∃ e, Read cfg = .error e) ∨
        (isMode cfg "subdir" = true ∧
          ∃ nd ∈ dirEnts ents, ∃ e, scansubdir (root ++ [nd.1]) nd.2 = .error e))) ∧
    (∀ e, scansubdir root (.node (some cfg) ents) = .error e →
      addpath root (.node (some cfg) ents) = .error e) := by
  rw [scansubdir_some]
  constructor
  · cases hr : Read cfg with
    | error e =>
      refine iff_of_true ⟨e, by simp⟩ (Or.inl ⟨e, rfl⟩)
    | ok u =>
      cases u
      simp only [except_bind_ok]
      by_cases hm : isMode cfg "subdir" = true
      · rw [if_pos hm]
        constructor
        · intro ⟨e, he⟩
          cases hd : scanDirs root ents with
          | error e2 =>
            exact Or.inr ⟨hm, (scanDirs_error_iff root ents).1 ⟨e2, hd⟩⟩
          | ok v => rw [hd] at he; simp at he
        · intro h
          rcases h with ⟨e, he⟩ | ⟨_, hsub⟩
          · cases he
          · obtain ⟨e2, he2⟩ := (scanDirs_error_iff root ents).2 hsub
            exact ⟨e2, by rw [he2]; rfl⟩
      · rw [if_neg hm]
        simp [hm]
  · intro e he
    unfold addpath
    rw [scansubdir_some, he]

/-- Witness for c1_amended: a subdir root whose sub directory descriptor
declares an invalid mode fails to build, and addpath propagates the
error so no node is added. -/
theorem c1_amended_witness :
    addpath [] exC1bad = .error "main mode is not recognized" :=
  (c1_amended [] cfgSubC1
    (.pdir "movies" (.node (some [("main", [("mode", "music")])]) .pnil) .pnil)).2
    "main mode is not recognized" (by with_unfolding_all rfl)

/-- C1 counterexample to the claim as stated: a subdir root listing a sub
directory with no descriptor file does NOT fail to build; the root is
scanned successfully, a node is constructed and registered, with the
unmanaged sub directory silently absent from the children. -/
theorem c1_counterexample :
    scansubdir ["movies"] (PDir.node none .pnil) = .ok none ∧
    addpath [] exC1 =
      .ok (Node.mk cfgSubC1 [('d', "movies", ["movies"])] NodeList.nil) :=
  ⟨by with_unfolding_all rfl, by with_unfolding_all rfl⟩

/-- C5 evaluated at the failing input: a movie item of hd tier with
multipleresolution on whose every ladder rung (hd and sd) already has a
completion marker.  The claim promises a cycle that invokes the encoder
zero times and completes its traversal; the code does invoke the encoder
zero times, but the cycle aborts with NotImplementedError, because the hd
fan out resolves the configuration into the wrong dict and the first rung
dict reaching ProcessVideo carries no video.passes key. -/
theorem c5_code_bug_eval :
    (Process fsC5 [] nodeC5 ⟨marksC5, [], []⟩).2 =
        POut.exn "Not handling single pass conversion yet" ∧
    hasEncode (Process fsC5 [] nodeC5 ⟨marksC5, [], []⟩).1.trace = false :=
  ⟨by with_unfolding_all rfl, by with_unfolding_all rfl⟩

/-- C9 evaluated at the failing input: for an hd source with
multipleresolution on, the first rung dict handed to ProcessVideo carries
no video.passes key (first conjunct: per rung presence of video.passes is
[false, true]), even though resolving the configuration on the rung copy
would have provided video.passes = 2 (second conjunct, what the 4k and 1k
branches do); consequently the whole cycle aborts with NotImplementedError
(third conjunct) instead of encoding per rung resolved settings. -/
theorem c9_code_bug_eval :
    (buildSets [cfgC5] [("resolution", "hd"), ("width", "1080"), ("height", "720")]
        "hd" true).map (fun sets => sets.map (fun s => dictHas s "video.passes")) =
      .ok [false, true] ∧
    dictGet (GetSettings [cfgC5]
        (dictSet [("resolution", "hd"), ("width", "1080"), ("height", "720")]
          "resolution" "hd")) "video.passes" = some "2" ∧
    (Process fsC5 [] nodeC5 ⟨[], [], []⟩).2 =
      POut.exn "Not handling single pass conversion yet" :=
  ⟨by with_unfolding_all rfl, by with_unfolding_all rfl, by with_unfolding_all rfl⟩

/-- C4 counterexample to the claim as stated: with passCount 3 and a fully
successful invocation, the three issued commands route the rung output to
the discard sink on pass 1 only; pass 2 - strictly before the last pass -
already writes the real output file. -/
theorem c4_counterexample :
    (encodeArgs (ProcessVideo fsC4 "M" ["M", "M.mkv"]
        [GetSettings [cfgC4]
          [("resolution", "1k"), ("width", "1920"), ("height", "1080")]]
        ⟨[], [true, true, true], []⟩).1.trace).map (fun a => a.getLastD "") =
      [devnullStr, "/M/M/ 1k.mkv", "/M/M/ 1k.mkv"] ∧
    ("/M/M/ 1k.mkv" : String) ≠ devnullStr :=
  ⟨by with_unfolding_all rfl, by decide⟩

/-- C7 counterexample to the claim as stated: in a movie item holding the
files A.mkv (probing to the unrecognized pair 640 x 360) and B.mkv
(probing to 1920 x 1080), the cycle stats and probes A, then aborts with
the uncaught exception from GuessResolution.  The failure is not isolated
to the item: the exception escapes Process (and processdirs re raises it),
the sibling B.mkv is never examined, and no marker is written. -/
theorem c7_counterexample :
    Process fsC7 [] nodeC7 ⟨[], [], []⟩ =
      (⟨[], [], [.statSize ["M", "A.mkv"], .probe ["M", "A.mkv"]]⟩,
        POut.exn "NameError: name subp is not defined") := by
  with_unfolding_all rfl

/-- C10 counterexample to the claim as stated: the zero size file is
indeed skipped before any probe in the first cycle and no marker is
written for the file itself, but the cycle then writes the completion
marker of the enclosing item, and the second cycle skips the whole item:
the trace of the second cycle holds no stat and no probe of the file, so
the zero size file is NOT re-examined in every later cycle. -/
theorem c10_counterexample :
    Process fsC10 [] nodeC10 ⟨[], [], []⟩ =
      (⟨[([".Z"], .itemCompleted)], [], [.statSize ["Z", "Z.mkv"]]⟩, POut.ok ()) ∧
    Process fsC10 [] nodeC10 ⟨[([".Z"], .itemCompleted)], [], []⟩ =
      (⟨[([".Z"], .itemCompleted)], [], []⟩, POut.ok ()) :=
  ⟨by with_unfolding_all rfl, by with_unfolding_all rfl⟩

theorem BuildFfmpegCommand_eq (args : List String) (src dest : Path)
    (s : Dict) (p : Nat) :
    BuildFfmpegCommand args src dest s p = (ffCore s).map (fun core =>
      (if args.length = 0 then args ++ ffmpegHeader src else args) ++ core ++
        [if p = 1 then devnullStr else pathStr dest]) := by
  unfold BuildFfmpegCommand ffCore ffmpegHeader keyOrErr
  cases h1 : dictGet s "video.codec" with
  | none => simp [Except.map]
  | some codec =>
    simp only [except_bind_ok]
    by_cases hc : (codec == "hevc_nvenc") = true
    · simp only [hc, if_true]
      cases h2 : dictGet s "video.bitrate" with
      | none => simp [Except.map]
      | some br =>
        simp only [except_bind_ok]
        cases h3 : dictGet s "video.preset" with
        | none => simp [Except.map]
        | some pr =>
          simp only [except_bind_ok]
          cases h4 : dictGet s "output.format" with
          | none => simp [Except.map]
          | some fmt => simp [Except.map, List.append_assoc]
    · simp only [hc, Bool.false_eq_true, if_false]
      cases h2 : dictGet s "video.bitrate" with
      | none => simp [Except.map]
      | some br =>
        simp only [except_bind_ok]
        cases h3 : dictGet s "video.preset" with
        | none => simp [Except.map]
        | some pr => simp [Except.map]

theorem argsOfGo_cons (path : Path) (p : Nat) (args0 : List String)
    (s : Dict) (res : String) (core : List String)
    (pcs : List (Dict × String × List String)) :
    argsOfGo path p
        ((if args0.length = 0 then args0 ++ ffmpegHeader path else args0) ++
          core ++ [if p = 1 then devnullStr else pathStr (GetFileResolutionName path res)])
        pcs =
      argsOfGo path p args0 ((s, res, core) :: pcs) := by
  cases pcs with
  | nil => simp [argsOfGo, blocksOf]
  | cons q qs => simp [argsOfGo, blocksOf, List.append_assoc]

theorem buildPassGo_eq (fs : PDir) (m : Marks) (path : Path) (p : Nat) :
    (lst : List Dict) → (args0 : List String) → (dones0 : List Path) →
      buildPassGo fs m path p lst args0 dones0 =
        (pendingCores fs m path lst).map
          (fun pcs => (argsOfGo path p args0 pcs, dones0 ++ donesOf path pcs))
  | [], args0, dones0 => by simp [buildPassGo, pendingCores, argsOfGo, donesOf, Except.map]
  | s :: rest, args0, dones0 => by
    unfold buildPassGo pendingCores
    cases h1 : keyOrErr s "output.format" with
    | error e => simp [Except.map]
    | ok fmt =>
      simp only [except_bind_ok]
      by_cases hf : (fmt == "matroska") = true
      · simp only [hf, if_true]
        cases h2 : keyOrErr s "resolution" with
        | error e => simp [Except.map]
        | ok res =>
          simp only [except_bind_ok]
          by_cases he : pyExists fs m (DotFileResolutionExists path res) = true
          · simp only [he, if_true]
            exact buildPassGo_eq fs m path p rest args0 dones0
          · simp only [he, Bool.false_eq_true, if_false]
            rw [BuildFfmpegCommand_eq]
            cases h3 : ffCore s with
            | error e => simp [Except.map]
            | ok core =>
              simp only [Except.map, except_bind_ok]
              rw [buildPassGo_eq fs m path p rest]
              cases h4 : pendingCores fs m path rest with
              | error e => simp [Except.map]
              | ok pcs =>
                simp only [Except.map]
                rw [show (dones0 ++ [DotFileResolutionExists path res]) ++ donesOf path pcs =
                    dones0 ++ donesOf path ((s, res, core) :: pcs) from by simp [donesOf]]
                rw [argsOfGo_cons]
      · simp [hf, Except.map]

theorem buildPass_eq (fs : PDir) (m : Marks) (path : Path) (lst : List Dict)
    (p : Nat) :
    buildPass fs m path lst p = (pendingCores fs m path lst).map
      (fun pcs => (passArgsOf path p pcs, donesOf path pcs)) := by
  unfold buildPass passArgsOf
  rw [buildPassGo_eq]
  cases pendingCores fs m path lst <;> simp [Except.map]

/-- The pending rungs, and hence the dot files to write, do not depend on
the pass index: only the output routing of the command does. -/
theorem buildPass_dones (fs : PDir) (m : Marks) (path : Path)
    (lst : List Dict) (p : Nat) :
    Except.map Prod.snd (buildPass fs m path lst p) =
      (pendingCores fs m path lst).map (donesOf path) := by
  rw [buildPass_eq]
  cases pendingCores fs m path lst <;> simp [Except.map]

/-! ## Trace discipline lemmas -/

theorem hasEncode_append (a b : List Ev) :
    hasEncode (a ++ b) = (hasEncode a || hasEncode b) := by
  simp [hasEncode, List.any_append]

theorem noExamineAfterEncode_examFree (d : List Ev)
    (h : d.all (fun e => !isExamineEv e) = true) :
    noExamineAfterEncode d = true := by
  induction d with
  | nil => rfl
  | cons e rest ih =>
    rw [List.all_cons, Bool.and_eq_true] at h
    cases e with
    | encode a =>
      simp only [noExamineAfterEncode]
      exact h.2
    | statSize p => simp only [noExamineAfterEncode]; exact ih h.2
    | probe p => simp only [noExamineAfterEncode]; exact ih h.2
    | notify m t => simp only [noExamineAfterEncode]; exact ih h.2

theorem noExamineAfterEncode_append (a b : List Ev)
    (ha : hasEncode a = false) (hb : noExamineAfterEncode b = true) :
    noExamineAfterEncode (a ++ b) = true := by
  induction a with
  | nil => simpa using hb
  | cons e rest ih =>
    rw [show hasEncode (e :: rest) = (isEncodeEv e || hasEncode rest) from by
      simp [hasEncode]] at ha
    rw [Bool.or_eq_false_iff] at ha
    cases e with
    | encode a2 => simp [isEncodeEv] at ha
    | statSize p =>
      simp only [List.cons_append, noExamineAfterEncode]
      exact ih ha.2
    | probe p =>
      simp only [List.cons_append, noExamineAfterEncode]
      exact ih ha.2
    | notify m t =>
      simp only [List.cons_append, noExamineAfterEncode]
      exact ih ha.2

theorem bind_run {α β : Type} (m : PyM α) (k : α → PyM β) (st : St) :
    (m >>= k) st =
      match (m st).2 with
      | POut.ok a => k a (m st).1
      | POut.item e => ((m st).1, POut.item e)
      | POut.exn e => ((m st).1, POut.exn e) := by
  show (match m st with
    | (s1, POut.ok a) => k a s1
    | (s1, POut.item e) => (s1, POut.item e)
    | (s1, POut.exn e) => (s1, POut.exn e)) = _
  cases h : m st with
  | mk s1 r => cases r <;> rfl

theorem traceP_bind {α β : Type} {m : PyM α} {k : α → PyM β}
    (hm : TraceP m) (hk : ∀ a, TraceP (k a)) : TraceP (m >>= k) := by
  intro st
  obtain ⟨d1, ht1, hn1, ho1⟩ := hm st
  rw [bind_run m k st]
  cases hr : (m st).2 with
  | ok a =>
    obtain ⟨d2, ht2, hn2, ho2⟩ := hk a (m st).1
    refine ⟨d1 ++ d2, ?_,
      noExamineAfterEncode_append d1 d2 (ho1 a hr) hn2, ?_⟩
    · rw [ht2, ht1, List.append_assoc]
    · intro b hb
      simp [hasEncode_append, ho1 a hr, ho2 b hb]
  | item e => exact ⟨d1, ht1, hn1, fun b hb => by simp at hb⟩
  | exn e => exact ⟨d1, ht1, hn1, fun b hb => by simp at hb⟩

/-! ## Run equations for the monad primitives -/

theorem run_getMarks_bind {β : Type} (k : Marks → PyM β) (st : St) :
    (getMarks >>= k) st = k st.marks st := rfl

theorem run_emit_bind {β : Type} (e : Ev) (k : Unit → PyM β) (st : St) :
    (emit e >>= k) st = k () ⟨st.marks, st.script, st.trace ++ [e]⟩ := rfl

theorem run_popScript_bind {β : Type} (k : Bool → PyM β)
    (mks : Marks) (scr : List Bool) (tr : List Ev) :
    (popScript >>= k) ⟨mks, scr, tr⟩ =
      match scr with
      | [] => k true ⟨mks, [], tr⟩
      | b :: rest => k b ⟨mks, rest, tr⟩ := by
  cases scr <;> rfl

theorem run_writeAll (dones : List Path) (t : MarkText) (st : St) :
    writeAll dones t st =
      (⟨markSetAll st.marks dones t, st.script, st.trace⟩, POut.ok ()) := by
  induction dones generalizing st with
  | nil => rfl
  | cons d rest ih =>
    rw [show writeAll (d :: rest) t st =
      writeAll rest t ⟨markSet st.marks d t, st.script, st.trace⟩ from rfl]
    rw [ih]
    rfl

theorem run_writeAll_bind {β : Type} (dones : List Path) (t : MarkText)
    (k : Unit → PyM β) (st : St) :
    (writeAll dones t >>= k) st =
      k () ⟨markSetAll st.marks dones t, st.script, st.trace⟩ := by
  rw [bind_run]
  rw [run_writeAll]

theorem buildPass_ok_inv {fs : PDir} {m : Marks} {path : Path}
    {lst : List Dict} {p : Nat} {args : List String} {dones : List Path}
    (h : buildPass fs m path lst p = .ok (args, dones)) :
    ∃ pcs, pendingCores fs m path lst = .ok pcs ∧
      args = passArgsOf path p pcs ∧ dones = donesOf path pcs := by
  rw [buildPass_eq] at h
  cases hp : pendingCores fs m path lst with
  | error e => rw [hp] at h; simp [Except.map] at h
  | ok pcs =>
    rw [hp] at h
    simp [Except.map] at h
    exact ⟨pcs, rfl, h.1.symm, h.2.symm⟩

theorem run_pvFail (name : String) (i : Nat) (args : List String)
    (dones : List Path) (st : St) :
    pvFail name i args dones st =
      (⟨markSetAll st.marks dones (.rungFailed (i + 1) args), st.script,
        st.trace ++ [Ev.notify ("Failed pass " ++ toString (i + 1)
          ++ " on item " ++ name) ("Failed " ++ name)]⟩,
       POut.item ("Failed pass " ++ toString (i + 1) ++ " on " ++ name
         ++ " but with exception")) := by
  unfold pvFail
  rw [run_writeAll_bind]
  rfl

theorem run_pvFinish (name : String) (path : Path) (args : List String)
    (dones : List Path) (st : St) :
    pvFinish name path args dones st =
      (⟨markSetAll st.marks dones (.rungCompleted args), st.script,
        st.trace ++ [Ev.notify ("Completed item " ++ name) ("Done " ++ name)]⟩,
       POut.item ("Finished " ++ pathStr path)) := by
  unfold pvFinish
  rw [run_writeAll_bind]
  rfl

theorem run_pvCont (name : String) (i : Nat) (next : PyM Unit) (st : St) :
    pvCont name i next st =
      next ⟨st.marks, st.script, st.trace ++ [Ev.notify ("Pass "
        ++ toString (i + 1) ++ " done on item " ++ name)
        ("Pass " ++ toString (i + 1) ++ " of " ++ name)]⟩ := rfl

theorem run_pvStep (fs : PDir) (name : String) (path : Path)
    (lst : List Dict) (i : Nat) (final : Bool) (next : PyM Unit)
    (mks : Marks) (scr : List Bool) (tr : List Ev) :
    pvStep fs name path lst i final next ⟨mks, scr, tr⟩ =
      match buildPass fs mks path lst (i + 1) with
      | .error e => (⟨mks, scr, tr⟩, POut.exn e)
      | .ok (args, dones) =>
        if dones.length = 0 then (⟨mks, scr, tr⟩, POut.ok ())
        else
          match scr with
          | [] =>
            (if final then pvFinish name path args dones
             else pvCont name i next) ⟨mks, [], tr ++ [Ev.encode args]⟩
          | b :: rest =>
            (if !b then pvFail name i args dones
             else if final then pvFinish name path args dones
             else pvCont name i next) ⟨mks, rest, tr ++ [Ev.encode args]⟩ := by
  unfold pvStep
  rw [run_getMarks_bind]
  cases hb : buildPass fs mks path lst (i + 1) with
  | error e => rfl
  | ok pr =>
    obtain ⟨args, dones⟩ := pr
    dsimp only
    by_cases hd : dones.length = 0
    · rw [if_pos hd, if_pos hd]
      rfl
    · rw [if_neg hd, if_neg hd]
      rw [run_emit_bind]
      rw [run_popScript_bind]
      cases scr with
      | nil => rfl
      | cons b rest => rfl

theorem pvLoop_spec (fs : PDir) (name : String) (path : Path)
    (lst : List Dict) :
    ∀ rem i st, ∃ d,
      (pvLoop fs name path lst rem i st).1.trace = st.trace ++ d ∧
      d.all (fun e => !isExamineEv e) = true ∧
      ((pvLoop fs name path lst rem i st).2 = POut.ok () →
        hasEncode d = false ∧
        (pvLoop fs name path lst rem i st).1.marks = st.marks ∧
        (rem = 0 ∨ pendingCores fs st.marks path lst = .ok [])) := by
  intro rem
  induction rem with
  | zero =>
    intro i st
    exact ⟨[], by simp [pvLoop, pure], rfl, fun _ => ⟨rfl, rfl, Or.inl rfl⟩⟩
  | succ rem ih =>
    intro i st
    obtain ⟨mks, scr, tr⟩ := st
    rw [show pvLoop fs name path lst (rem + 1) i =
      pvStep fs name path lst i (rem == 0)
        (pvLoop fs name path lst rem (i + 1)) from rfl]
    rw [run_pvStep]
    cases hb : buildPass fs mks path lst (i + 1) with
    | error e =>
      exact ⟨[], by simp, rfl, fun h => by simp at h⟩
    | ok pr =>
      obtain ⟨args, dones⟩ := pr
      dsimp only
      by_cases hd : dones.length = 0
      · rw [if_pos hd]
        obtain ⟨pcs, hpcs, _, hdns⟩ := buildPass_ok_inv hb
        have hnil : pcs = [] := by
          cases pcs with
          | nil => rfl
          | cons a b => rw [hdns] at hd; simp [donesOf] at hd
        rw [hnil] at hpcs
        exact ⟨[], by simp, rfl, fun _ => ⟨rfl, rfl, Or.inr hpcs⟩⟩
      · rw [if_neg hd]
        have hfail : ∀ scr2 : List Bool, ∃ d,
            (pvFail name i args dones
              ⟨mks, scr2, tr ++ [Ev.encode args]⟩).1.trace = tr ++ d ∧
            d.all (fun e => !isExamineEv e) = true ∧
            ((pvFail name i args dones
                ⟨mks, scr2, tr ++ [Ev.encode args]⟩).2 = POut.ok () →
              hasEncode d = false ∧
              (pvFail name i args dones
                ⟨mks, scr2, tr ++ [Ev.encode args]⟩).1.marks = mks ∧
              (rem + 1 = 0 ∨ pendingCores fs mks path lst = .ok [])) := by
          intro scr2
          rw [run_pvFail]
          exact ⟨[Ev.encode args, Ev.notify ("Failed pass " ++ toString (i + 1)
              ++ " on item " ++ name) ("Failed " ++ name)],
            by simp, rfl, fun h => by simp at h⟩
        have hsucc : ∀ scr2 : List Bool, ∃ d,
            ((if (rem == 0) then pvFinish name path args dones
              else pvCont name i (pvLoop fs name path lst rem (i + 1)))
              ⟨mks, scr2, tr ++ [Ev.encode args]⟩).1.trace = tr ++ d ∧
            d.all (fun e => !isExamineEv e) = true ∧
            (((if (rem == 0) then pvFinish name path args dones
                else pvCont name i (pvLoop fs name path lst rem (i + 1)))
                ⟨mks, scr2, tr ++ [Ev.encode args]⟩).2 = POut.ok () →
              hasEncode d = false ∧
              ((if (rem == 0) then pvFinish name path args dones
                else pvCont name i (pvLoop fs name path lst rem (i + 1)))
                ⟨mks, scr2, tr ++ [Ev.encode args]⟩).1.marks = mks ∧
              (rem + 1 = 0 ∨ pendingCores fs mks path lst = .ok [])) := by
          intro scr2
          by_cases hz : rem = 0
          · rw [if_pos (by simp [hz])]
            rw [run_pvFinish]
            exact ⟨[Ev.encode args, Ev.notify ("Completed item " ++ name)
              ("Done " ++ name)], by simp, rfl, fun h => by simp at h⟩
          · rw [if_neg (by simp [hz])]
            rw [run_pvCont]
            obtain ⟨d2, ht2, he2, ho2⟩ := ih (i + 1)
              ⟨mks, scr2, (tr ++ [Ev.encode args]) ++
                [Ev.notify ("Pass " ++ toString (i + 1) ++ " done on item "
                  ++ name) ("Pass " ++ toString (i + 1) ++ " of " ++ name)]⟩
            refine ⟨[Ev.encode args, Ev.notify ("Pass " ++ toString (i + 1)
              ++ " done on item " ++ name) ("Pass " ++ toString (i + 1)
              ++ " of " ++ name)] ++ d2, ?_, ?_, ?_⟩
            · rw [ht2]
              simp
            · rw [List.all_append, Bool.and_eq_true]
              exact ⟨rfl, he2⟩
            · intro h
              obtain ⟨henc2, hmk2, hor⟩ := ho2 h
              rcases hor with h0 | hpc
              · exact absurd h0 hz
              · obtain ⟨pcs, hpcs, _, hdns⟩ := buildPass_ok_inv hb
                rw [hpc] at hpcs
                have hpe : pcs = [] := by
                  injection hpcs with h2
                  exact h2.symm
                rw [hpe] at hdns
                rw [hdns] at hd
                simp [donesOf] at hd
        cases scr with
        | nil =>
          obtain ⟨d, h1, h2, h3⟩ := hsucc []
          exact ⟨d, h1, h2, h3⟩
        | cons b rest =>
          cases b with
          | false =>
            simp only [Bool.not_false, if_true]
            obtain ⟨d, h1, h2, h3⟩ := hfail rest
            exact ⟨d, h1, h2, h3⟩
          | true =>
            simp only [Bool.not_true, Bool.false_eq_true, if_false]
            obtain ⟨d, h1, h2, h3⟩ := hsucc rest
            exact ⟨d, h1, h2, h3⟩

/-! ## TraceP for the monad primitives -/

theorem traceP_silent {α : Type} {m : PyM α}
    (h : ∀ st, (m st).1.trace = st.trace) : TraceP m := by
  intro st
  exact ⟨[], by rw [h st, List.append_nil], rfl, fun _ _ => rfl⟩

theorem traceP_pure {α : Type} (a : α) : TraceP (pure a : PyM α) :=
  traceP_silent (fun _ => rfl)

theorem traceP_raiseExn {α : Type} (m : String) :
    TraceP (raiseExn m : PyM α) :=
  traceP_silent (fun _ => rfl)

theorem traceP_raiseItem {α : Type} (m : String) :
    TraceP (raiseItem m : PyM α) :=
  traceP_silent (fun _ => rfl)

theorem traceP_getMarks : TraceP getMarks :=
  traceP_silent (fun _ => rfl)

theorem traceP_writeMark (p : Path) (t : MarkText) :
    TraceP (writeMark p t) :=
  traceP_silent (fun _ => rfl)

theorem traceP_popScript : TraceP popScript :=
  traceP_silent (fun st => by
    obtain ⟨mks, scr, tr⟩ := st
    cases scr <;> rfl)

theorem traceP_liftE {α : Type} (e : Except String α) : TraceP (liftE e) := by
  cases e with
  | ok a => exact traceP_pure a
  | error m => exact traceP_raiseExn m

theorem traceP_emit (e : Ev) (h : isEncodeEv e = false) : TraceP (emit e) := by
  intro st
  refine ⟨[e], rfl, ?_, fun _ _ => ?_⟩
  · cases e <;> rfl
  · simp [hasEncode, h]

theorem traceP_SendNotification (msg title : String) :
    TraceP (SendNotification msg title) :=
  traceP_emit _ rfl

theorem traceP_listdirM (fs : PDir) (p : Path) : TraceP (listdirM fs p) :=
  traceP_silent (fun st => by
    unfold listdirM
    cases dirLookup fs p with
    | none => rfl
    | some d => cases d with | node c ents => rfl)

theorem traceP_getsizeM (fs : PDir) (p : Path) : TraceP (getsizeM fs p) := by
  unfold getsizeM
  refine traceP_bind (traceP_emit _ rfl) (fun _ => ?_)
  cases fileLookup fs p with
  | some i => exact traceP_pure _
  | none => exact traceP_raiseExn _

theorem traceP_GetResolution (fs : PDir) (p : Path) :
    TraceP (GetResolution fs p) := by
  unfold GetResolution
  refine traceP_bind (traceP_emit _ rfl) (fun _ => ?_)
  cases fileLookup fs p with
  | none => exact traceP_raiseExn _
  | some i =>
    dsimp only
    cases i.dims with
    | none => exact traceP_raiseExn _
    | some wh => exact traceP_pure _

theorem traceP_ite {α : Type} (c : Prop) [Decidable c] (t e : PyM α)
    (ht : TraceP t) (he : TraceP e) : TraceP (if c then t else e) := by
  by_cases h : c
  · rw [if_pos h]; exact ht
  · rw [if_neg h]; exact he

theorem traceP_pvLoop (fs : PDir) (name : String) (path : Path)
    (lst : List Dict) (rem i : Nat) : TraceP (pvLoop fs name path lst rem i) := by
  intro st
  obtain ⟨d, ht, he, ho⟩ := pvLoop_spec fs name path lst rem i st
  refine ⟨d, ht, noExamineAfterEncode_examFree d he, fun a ha => ?_⟩
  cases a
  exact (ho ha).1

theorem traceP_ProcessVideo (fs : PDir) (name : String) (path : Path)
    (lst : List Dict) : TraceP (ProcessVideo fs name path lst) := by
  unfold ProcessVideo
  cases lst with
  | nil => exact traceP_raiseExn _
  | cons s0 rest =>
    refine traceP_ite _ _ _ (traceP_raiseExn _) ?_
    cases pyParseInt ((dictGet s0 "video.passes").getD "") with
    | none => exact traceP_raiseExn _
    | some passes => exact traceP_pvLoop fs name path _ passes.toNat 0

/-! ## Trace discipline of the traversal -/

theorem traceP_pmBody (fs : PDir) (chain : List CfgFile) (path : Path)
    (name item : String) : TraceP (pmBody fs chain path name item) := by
  unfold pmBody
  refine traceP_bind traceP_getMarks (fun m => ?_)
  refine traceP_ite _ _ _ ?_ (traceP_pure ())
  refine traceP_bind (traceP_liftE _) (fun multi => ?_)
  refine traceP_bind (traceP_getsizeM fs _) (fun size => ?_)
  refine traceP_ite _ _ _ (traceP_pure ()) ?_
  refine traceP_bind (traceP_GetResolution fs _) (fun wh => ?_)
  refine traceP_bind (traceP_liftE _) (fun res => ?_)
  refine traceP_bind (traceP_liftE _) (fun sets => ?_)
  exact traceP_ProcessVideo fs name _ sets

theorem traceP_pmLoop (fs : PDir) (chain : List CfgFile) (path : Path)
    (name : String) : (items : List String) →
      TraceP (pmLoop fs chain path name items)
  | [] => traceP_pure ()
  | item :: rest =>
    traceP_bind (traceP_pmBody fs chain path name item)
      (fun _ => traceP_pmLoop fs chain path name rest)

theorem traceP_ProcessMovie (fs : PDir) (chain : List CfgFile) (path : Path) :
    TraceP (ProcessMovie fs chain path) := by
  unfold ProcessMovie
  refine traceP_bind (traceP_listdirM fs path) (fun items => ?_)
  exact traceP_pmLoop fs chain path _ _

theorem traceP_ProcessTVSeasonEpisode (fs : PDir) (chain : List CfgFile)
    (path : Path) (name season episode : String) :
    TraceP (ProcessTVSeasonEpisode fs chain path name season episode) := by
  unfold ProcessTVSeasonEpisode
  refine traceP_bind (traceP_getsizeM fs _) (fun size => ?_)
  refine traceP_ite _ _ _ (traceP_pure ()) ?_
  refine traceP_bind (traceP_GetResolution fs _) (fun wh => ?_)
  refine traceP_bind (traceP_liftE _) (fun res => ?_)
  refine traceP_bind (traceP_liftE _) (fun multi => ?_)
  refine traceP_bind (traceP_liftE _) (fun sets => ?_)
  exact traceP_ProcessVideo fs name _ sets

theorem traceP_ProcessTVSeasonSpecial (fs : PDir) (chain : List CfgFile)
    (path : Path) (name season specialdir specialName : String) :
    TraceP (ProcessTVSeasonSpecial fs chain path name season specialdir
      specialName) := by
  unfold ProcessTVSeasonSpecial
  refine traceP_bind (traceP_getsizeM fs _) (fun size => ?_)
  refine traceP_ite _ _ _ (traceP_pure ()) ?_
  refine traceP_bind (traceP_GetResolution fs _) (fun wh => ?_)
  refine traceP_bind (traceP_liftE _) (fun res => ?_)
  refine traceP_bind (traceP_liftE _) (fun multi => ?_)
  refine traceP_bind (traceP_liftE _) (fun sets => ?_)
  exact traceP_ProcessVideo fs _ _ sets

theorem traceP_epLoop (fs : PDir) (chain : List CfgFile) (path : Path)
    (name season : String) : (eps : List String) →
      TraceP (epLoop fs chain path name season eps)
  | [] => traceP_pure ()
  | ep :: rest =>
    traceP_bind (traceP_ProcessTVSeasonEpisode fs chain path name season ep)
      (fun _ => traceP_epLoop fs chain path name season rest)

theorem traceP_spLoop (fs : PDir) (chain : List CfgFile) (path : Path)
    (name season specialdir : String) : (sps : List String) →
      TraceP (spLoop fs chain path name season specialdir sps)
  | [] => traceP_pure ()
  | sp :: rest =>
    traceP_bind
      (traceP_ProcessTVSeasonSpecial fs chain path name season specialdir sp)
      (fun _ => traceP_spLoop fs chain path name season specialdir rest)

theorem traceP_spDirLoop (fs : PDir) (chain : List CfgFile) (path : Path)
    (name season : String) : (sds : List String) →
      TraceP (spDirLoop fs chain path name season sds)
  | [] => traceP_pure ()
  | specialdir :: rest => by
    unfold spDirLoop
    refine traceP_bind (traceP_listdirM fs _) (fun specials => ?_)
    refine traceP_bind (traceP_spLoop fs chain path name season specialdir _)
      (fun _ => ?_)
    exact traceP_spDirLoop fs chain path name season rest

theorem traceP_ProcessTVSeason (fs : PDir) (chain : List CfgFile)
    (path : Path) (name season : String) :
    TraceP (ProcessTVSeason fs chain path name season) := by
  unfold ProcessTVSeason
  refine traceP_bind (traceP_listdirM fs _) (fun items => ?_)
  refine traceP_bind traceP_getMarks (fun m => ?_)
  refine traceP_bind (traceP_epLoop fs chain path name season _) (fun _ => ?_)
  exact traceP_spDirLoop fs chain path name season _

theorem traceP_seasonBody (fs : PDir) (chain : List CfgFile) (path : Path)
    (name : String) (dots : List String) (season : String) :
    TraceP (seasonBody fs chain path name dots season) := by
  unfold seasonBody
  refine traceP_ite _ _ _ (traceP_pure ()) ?_
  exact traceP_bind (traceP_ProcessTVSeason fs chain path name season)
    (fun _ => traceP_writeMark _ _)

theorem traceP_seasonLoop (fs : PDir) (chain : List CfgFile) (path : Path)
    (name : String) (dots : List String) : (seasons : List String) →
      TraceP (seasonLoop fs chain path name dots seasons)
  | [] => traceP_pure ()
  | season :: rest =>
    traceP_bind (traceP_seasonBody fs chain path name dots season)
      (fun _ => traceP_seasonLoop fs chain path name dots rest)

theorem traceP_ProcessTV (fs : PDir) (chain : List CfgFile) (path : Path) :
    TraceP (ProcessTV fs chain path) := by
  unfold ProcessTV
  refine traceP_bind (traceP_listdirM fs path) (fun listing => ?_)
  exact traceP_seasonLoop fs chain path _ _ _

theorem traceP_processItemsBody (fs : PDir) (chain : List CfgFile)
    (cfg : CfgFile) (ipath : Path) :
    TraceP (processItemsBody fs chain cfg ipath) := by
  unfold processItemsBody
  refine traceP_bind traceP_getMarks (fun m => ?_)
  refine traceP_ite _ _ _ (traceP_pure ()) ?_
  refine traceP_bind ?_ (fun _ => traceP_writeMark _ _)
  exact traceP_ite _ _ _ (traceP_ProcessMovie fs chain ipath)
    (traceP_ProcessTV fs chain ipath)

theorem traceP_processItems (fs : PDir) (chain : List CfgFile) (cfg : CfgFile) :
    (items : List (Char × String × Path)) →
      TraceP (processItems fs chain cfg items)
  | [] => traceP_pure ()
  | (_k, _nm, ipath) :: rest =>
    traceP_bind (traceP_processItemsBody fs chain cfg ipath)
      (fun _ => traceP_processItems fs chain cfg rest)

mutual
theorem traceP_Process (fs : PDir) (anc : List CfgFile) :
    (n : Node) → TraceP (Process fs anc n)
  | .mk cfg items children => by
    unfold Process
    refine traceP_ite _ _ _ (traceP_processChildren fs (cfg :: anc) children) ?_
    refine traceP_ite _ _ _ (traceP_processItems fs (cfg :: anc) cfg items) ?_
    exact traceP_raiseExn _

theorem traceP_processChildren (fs : PDir) (anc : List CfgFile) :
    (l : NodeList) → TraceP (processChildren fs anc l)
  | .nil => traceP_pure ()
  | .cons c rest =>
    traceP_bind (traceP_Process fs anc c)
      (fun _ => traceP_processChildren fs anc rest)
end

/-- One cycle over the registered roots only appends trace events, and the
appended segment never examines an item after an encoder invocation: the
per root ItemProcessed exception that processdirs swallows was raised
before any further examination could happen. -/
theorem processdirs_trace (fs : PDir) : (roots : List Node) → (st : St) →
    ∃ d, (processdirs fs roots st).1.trace = st.trace ++ d ∧
      noExamineAfterEncode d = true
  | [], st => ⟨[], (List.append_nil st.trace).symm, rfl⟩
  | root :: rest, st => by
    cases hres : Process fs [] root st with
    | mk s1 r =>
      rw [show processdirs fs (root :: rest) st =
        (match Process fs [] root st with
         | (s1, POut.ok _) => processdirs fs rest s1
         | (s1, POut.item _) => (s1, POut.ok ())
         | (s1, POut.exn e) => (s1, POut.exn e)) from rfl, hres]
      obtain ⟨d1, ht1, hn1, ho1⟩ := traceP_Process fs [] root st
      have hs1 : s1.trace = st.trace ++ d1 := by rw [← ht1, hres]
      cases r with
      | ok a =>
        obtain ⟨d2, ht2, hn2⟩ := processdirs_trace fs rest s1
        refine ⟨d1 ++ d2, ?_, ?_⟩
        · dsimp only
          rw [ht2, hs1, List.append_assoc]
        · have henc1 : hasEncode d1 = false := ho1 a (by rw [hres])
          exact noExamineAfterEncode_append d1 d2 henc1 hn2
      | item e => exact ⟨d1, hs1, hn1⟩
      | exn e => exact ⟨d1, hs1, hn1⟩

/-- C2: starting a cycle with an empty trace, the node traversal never
examines an item (size stat or probe) after an encoder invocation; if an
encoder invocation happened, Process does not return normally (the
ItemProcessed control exception ends the traversal of the node tree), and
the whole cycle over the registered roots obeys the same no examination
after encode discipline. -/
theorem c2_encode_ends_cycle (fs : PDir) (anc : List CfgFile) (n : Node)
    (roots : List Node) (st : St) (h : st.trace = []) :
    noExamineAfterEncode (Process fs anc n st).1.trace = true ∧
    (hasEncode (Process fs anc n st).1.trace = true →
      (Process fs anc n st).2 ≠ POut.ok ()) ∧
    noExamineAfterEncode (processdirs fs roots st).1.trace = true := by
  obtain ⟨d1, ht1, hn1, ho1⟩ := traceP_Process fs anc n st
  obtain ⟨d2, ht2, hn2⟩ := processdirs_trace fs roots st
  rw [h] at ht1 ht2
  simp only [List.nil_append] at ht1 ht2
  refine ⟨by rw [ht1]; exact hn1, ?_, by rw [ht2]; exact hn2⟩
  intro henc hok
  have hfe : hasEncode d1 = false := ho1 () hok
  rw [ht1, hfe] at henc
  cases henc

/-- C2 witness: a three pass movie root with a pending item and an all
success encoder script; the cycle does real work and the theorem applies. -/
theorem c2_encode_ends_cycle_witness :
    noExamineAfterEncode
      (Process fsC4 [] nodeC4 ⟨[], [true, true, true], []⟩).1.trace = true ∧
    (hasEncode
        (Process fsC4 [] nodeC4 ⟨[], [true, true, true], []⟩).1.trace = true →
      (Process fsC4 [] nodeC4 ⟨[], [true, true, true], []⟩).2 ≠
        POut.ok ()) ∧
    noExamineAfterEncode
      (processdirs fsC4 [nodeC4] ⟨[], [true, true, true], []⟩).1.trace = true :=
  c2_encode_ends_cycle fsC4 [] nodeC4 [nodeC4] ⟨[], [true, true, true], []⟩ rfl

/-! ## Marker set lemmas -/

theorem marks_find_map_ne (m : Marks) (p : Path) (t : MarkText) (q : Path)
    (h : q ≠ p) :
    (m.map (fun e => if e.1 == p then (p, t) else e)).find?
        (fun e => e.1 == q) =
      m.find? (fun e => e.1 == q) := by
  induction m with
  | nil => rfl
  | cons e rest ih =>
    rw [List.map_cons]
    by_cases he : e.1 = p
    · have hf : (if (e.1 == p) = true then (p, t) else e) = (p, t) := by
        simp [he]
      rw [hf]
      rw [List.find?_cons_of_neg _ (by simp [Ne.symm h])]
      rw [List.find?_cons_of_neg _ (by simp [he, Ne.symm h])]
      exact ih
    · have hf : (if (e.1 == p) = true then (p, t) else e) = e := by
        simp [he]
      rw [hf]
      by_cases hq : e.1 = q
      · rw [List.find?_cons_of_pos _ (by simp [hq]),
          List.find?_cons_of_pos _ (by simp [hq])]
      · rw [List.find?_cons_of_neg _ (by simp [hq]),
          List.find?_cons_of_neg _ (by simp [hq])]
        exact ih

theorem marks_find_map_eq (m : Marks) (p : Path) (t : MarkText)
    (h : markHas m p = true) :
    (m.map (fun e => if e.1 == p then (p, t) else e)).find?
        (fun e => e.1 == p) = some (p, t) := by
  induction m with
  | nil => simp [markHas] at h
  | cons e rest ih =>
    rw [List.map_cons]
    by_cases he : e.1 = p
    · have hf : (if (e.1 == p) = true then (p, t) else e) = (p, t) := by
        simp [he]
      rw [hf]
      rw [List.find?_cons_of_pos _ (by simp)]
    · have hf : (if (e.1 == p) = true then (p, t) else e) = e := by
        simp [he]
      rw [hf]
      rw [List.find?_cons_of_neg _ (by simp [he])]
      apply ih
      unfold markHas at h
      rw [List.find?_cons_of_neg _ (by simp [he])] at h
      exact h

theorem markGet_markSet (m : Marks) (p : Path) (t : MarkText) (q : Path) :
    markGet (markSet m p t) q = if q = p then some t else markGet m q := by
  unfold markSet markGet
  by_cases hh : (m.find? (fun e => e.1 == p)).isSome
  · rw [if_pos hh]
    by_cases hq : q = p
    · subst hq
      rw [marks_find_map_eq m q t hh]
      rw [if_pos rfl]
      rfl
    · rw [marks_find_map_ne m p t q hq]
      rw [if_neg hq]
  · rw [if_neg hh]
    rw [List.find?_append]
    by_cases hq : q = p
    · subst hq
      have hmn : m.find? (fun e => e.1 == q) = none := by
        cases hfind : m.find? (fun e => e.1 == q) with
        | none => rfl
        | some x => rw [hfind] at hh; simp at hh
      rw [hmn]
      rw [List.find?_cons_of_pos _ (by simp)]
      simp
    · have hone : ([(p, t)].find? (fun e => e.1 == q)) = none := by
        rw [List.find?_cons_of_neg _ (by simp [Ne.symm hq])]
        rfl
      rw [hone]
      rw [if_neg hq]
      simp

theorem markHas_eq_markGet (m : Marks) (q : Path) :
    markHas m q = (markGet m q).isSome := by
  unfold markHas markGet
  cases m.find? (fun e => e.1 == q) <;> rfl

theorem markGet_markSetAll_keep (ds : List Path) (m : Marks) (t : MarkText)
    (d : Path) (h : markGet m d = some t) :
    markGet (markSetAll m ds t) d = some t := by
  induction ds generalizing m with
  | nil => exact h
  | cons e ds ih =>
    rw [show markSetAll m (e :: ds) t = markSetAll (markSet m e t) ds t from rfl]
    apply ih
    rw [markGet_markSet]
    by_cases hd : d = e
    · rw [if_pos hd]
    · rw [if_neg hd]; exact h

theorem markGet_markSetAll_mem (ds : List Path) (m : Marks) (t : MarkText)
    (d : Path) (h : d ∈ ds) :
    markGet (markSetAll m ds t) d = some t := by
  induction ds generalizing m with
  | nil => cases h
  | cons e ds ih =>
    rw [show markSetAll m (e :: ds) t = markSetAll (markSet m e t) ds t from rfl]
    rcases List.mem_cons.mp h with he | hm
    · subst he
      apply markGet_markSetAll_keep
      rw [markGet_markSet, if_pos rfl]
    · exact ih _ hm

theorem pyExists_markSet_mono (fs : PDir) (m : Marks) (p : Path)
    (t : MarkText) (q : Path) (h : pyExists fs m q = true) :
    pyExists fs (markSet m p t) q = true := by
  have hm : markHas m q = true → markHas (markSet m p t) q = true := by
    intro hq
    rw [markHas_eq_markGet, markGet_markSet]
    by_cases hqp : q = p
    · rw [if_pos hqp]; rfl
    · rw [if_neg hqp, ← markHas_eq_markGet]; exact hq
  unfold pyExists at h ⊢
  simp only [Bool.or_eq_true] at h ⊢
  rcases h with (h1 | h2) | h3
  · exact Or.inl (Or.inl (hm h1))
  · exact Or.inl (Or.inr h2)
  · exact Or.inr h3

theorem pyExists_markSetAll_mono (fs : PDir) (ds : List Path) (m : Marks)
    (t : MarkText) (q : Path) (h : pyExists fs m q = true) :
    pyExists fs (markSetAll m ds t) q = true := by
  induction ds generalizing m with
  | nil => exact h
  | cons e ds ih =>
    rw [show markSetAll m (e :: ds) t = markSetAll (markSet m e t) ds t from rfl]
    exact ih _ (pyExists_markSet_mono fs m e t q h)

theorem pyExists_markSetAll_mem (fs : PDir) (ds : List Path) (m : Marks)
    (t : MarkText) (d : Path) (h : d ∈ ds) :
    pyExists fs (markSetAll m ds t) d = true := by
  unfold pyExists
  rw [markHas_eq_markGet, markGet_markSetAll_mem ds m t d h]
  rfl

/-- Once every rung that was pending under marks m carries a marker (and
nothing that existed disappeared), the per pass scan finds nothing left to
do. -/
theorem pendingCores_ok_nil (fs : PDir) (path : Path) :
    (lst : List Dict) → (pcs : List (Dict × String × List String)) →
    (m m2 : Marks) →
    pendingCores fs m path lst = .ok pcs →
    (∀ q, pyExists fs m q = true → pyExists fs m2 q = true) →
    (∀ d, d ∈ donesOf path pcs → pyExists fs m2 d = true) →
    pendingCores fs m2 path lst = .ok []
  | [], _, _, _, _, _, _ => rfl
  | s :: rest, pcs, m, m2, h, hmono, hdones => by
    unfold pendingCores at h ⊢
    cases hk : keyOrErr s "output.format" with
    | error e =>
      rw [hk] at h
      simp only [except_bind_err] at h
      cases h
    | ok fmt =>
      rw [hk] at h
      simp only [except_bind_ok] at h ⊢
      by_cases hf : (fmt == "matroska") = true
      · rw [if_pos hf] at h ⊢
        cases hr : keyOrErr s "resolution" with
        | error e =>
          rw [hr] at h
          simp only [except_bind_err] at h
          cases h
        | ok res =>
          rw [hr] at h
          simp only [except_bind_ok] at h ⊢
          by_cases hex : pyExists fs m (DotFileResolutionExists path res) = true
          · rw [if_pos hex] at h
            rw [if_pos (hmono _ hex)]
            exact pendingCores_ok_nil fs path rest pcs m m2 h hmono hdones
          · rw [if_neg hex] at h
            cases hc : ffCore s with
            | error e =>
              rw [hc] at h
              simp only [except_bind_err] at h
              cases h
            | ok core =>
              rw [hc] at h
              simp only [except_bind_ok] at h
              cases hrest : pendingCores fs m path rest with
              | error e => rw [hrest] at h; simp [Except.map] at h
              | ok pcs2 =>
                rw [hrest] at h
                simp only [Except.map] at h
                have hpcs : pcs = (s, res, core) :: pcs2 := by
                  injection h with h2
                  exact h2.symm
                have hd : pyExists fs m2 (DotFileResolutionExists path res)
                    = true := by
                  apply hdones
                  rw [hpcs]
                  simp [donesOf]
                rw [if_pos hd]
                apply pendingCores_ok_nil fs path rest pcs2 m m2 hrest hmono
                intro d hdm
                apply hdones
                rw [hpcs]
                simp only [donesOf, List.map_cons, List.mem_cons]
                right
                simpa [donesOf] using hdm
      · rw [if_neg hf] at h
        cases h

/-- The pass loop under a script of j successes followed by a failure:
the failing pass is i + j + 1, every rung pending under the entry marks
receives a failure marker recording that pass and its command, the rest of
the script is untouched, and ItemProcessed is raised.  The appended trace
contains the encoder invocation. -/
theorem pvLoop_fail (fs : PDir) (name : String) (path : Path)
    (lst : List Dict) (pcs : List (Dict × String × List String))
    (hne : pcs ≠ []) :
    ∀ (j rem i : Nat) (m : Marks) (scrtail : List Bool) (tr : List Ev),
      pendingCores fs m path lst = .ok pcs →
      j + 1 ≤ rem →
      ∃ tr2,
        pvLoop fs name path lst rem i
            ⟨m, List.replicate j true ++ false :: scrtail, tr⟩ =
          (⟨markSetAll m (donesOf path pcs)
              (.rungFailed (i + j + 1) (passArgsOf path (i + j + 1) pcs)),
            scrtail, tr ++ tr2⟩,
           POut.item ("Failed pass " ++ toString (i + j + 1) ++ " on "
             ++ name ++ " but with exception")) ∧
        hasEncode tr2 = true := by
  have hdl : ¬(donesOf path pcs).length = 0 := by
    simp only [donesOf, List.length_map]
    intro h
    exact hne (List.length_eq_zero.mp h)
  intro j
  induction j with
  | zero =>
    intro rem i m scrtail tr hpcs hle
    cases rem with
    | zero => exact absurd hle (by omega)
    | succ rem2 =>
      rw [show pvLoop fs name path lst (rem2 + 1) i =
        pvStep fs name path lst i (rem2 == 0)
          (pvLoop fs name path lst rem2 (i + 1)) from rfl]
      rw [run_pvStep]
      rw [show buildPass fs m path lst (i + 1) = .ok
        (passArgsOf path (i + 1) pcs, donesOf path pcs) from by
          rw [buildPass_eq, hpcs]; rfl]
      dsimp only
      rw [if_neg hdl]
      rw [show List.replicate 0 true ++ false :: scrtail =
        false :: scrtail from rfl]
      dsimp only
      simp only [Bool.not_false, if_true]
      rw [run_pvFail]
      refine ⟨[Ev.encode (passArgsOf path (i + 1) pcs),
        Ev.notify ("Failed pass " ++ toString (i + 1) ++ " on item " ++ name)
          ("Failed " ++ name)], ?_, ?_⟩
      · rw [show i + 0 + 1 = i + 1 from rfl]
        simp [List.append_assoc]
      · simp [hasEncode, isEncodeEv]
  | succ j ih =>
    intro rem i m scrtail tr hpcs hle
    cases rem with
    | zero => exact absurd hle (by omega)
    | succ rem2 =>
      rw [show pvLoop fs name path lst (rem2 + 1) i =
        pvStep fs name path lst i (rem2 == 0)
          (pvLoop fs name path lst rem2 (i + 1)) from rfl]
      rw [run_pvStep]
      rw [show buildPass fs m path lst (i + 1) = .ok
        (passArgsOf path (i + 1) pcs, donesOf path pcs) from by
          rw [buildPass_eq, hpcs]; rfl]
      dsimp only
      rw [if_neg hdl]
      rw [show List.replicate (j + 1) true ++ false :: scrtail =
        true :: (List.replicate j true ++ false :: scrtail) from rfl]
      dsimp only
      simp only [Bool.not_true, Bool.false_eq_true, if_false]
      rw [if_neg (show ¬((rem2 == 0) = true) from by simp; omega)]
      rw [run_pvCont]
      obtain ⟨tr2, heq, henc⟩ := ih rem2 (i + 1) m scrtail
        ((tr ++ [Ev.encode (passArgsOf path (i + 1) pcs)]) ++
          [Ev.notify ("Pass " ++ toString (i + 1) ++ " done on item " ++ name)
            ("Pass " ++ toString (i + 1) ++ " of " ++ name)])
        hpcs (by omega)
      rw [heq]
      have hidx : i + 1 + j + 1 = i + (j + 1) + 1 := by omega
      rw [hidx]
      refine ⟨[Ev.encode (passArgsOf path (i + 1) pcs),
        Ev.notify ("Pass " ++ toString (i + 1) ++ " done on item " ++ name)
          ("Pass " ++ toString (i + 1) ++ " of " ++ name)] ++ tr2, ?_, ?_⟩
      · simp [List.append_assoc]
      · simp [hasEncode_append, hasEncode, isEncodeEv]

theorem ProcessVideo_eq_pvLoop (fs : PDir) (name : String) (path : Path)
    (s0 : Dict) (rest : List Dict) (n : Int)
    (hv : dictHas s0 "video.passes" = true)
    (hp : pyParseInt ((dictGet s0 "video.passes").getD "") = some n) :
    ProcessVideo fs name path (s0 :: rest) =
      pvLoop fs name path (s0 :: rest) n.toNat 0 := by
  unfold ProcessVideo
  dsimp only
  rw [hv]
  simp only [Bool.not_true, Bool.false_eq_true, if_false]
  rw [hp]

/-- A settings list with no pending rung makes ProcessVideo a complete no
op: no marker, no script consumption, no event, and a normal return. -/
theorem ProcessVideo_settled (fs : PDir) (name : String) (path : Path)
    (s0 : Dict) (rest : List Dict) (n : Int) (m2 : Marks) (scr : List Bool)
    (tr : List Ev)
    (hv : dictHas s0 "video.passes" = true)
    (hp : pyParseInt ((dictGet s0 "video.passes").getD "") = some n)
    (hpos : 0 < n.toNat)
    (hnp : pendingCores fs m2 path (s0 :: rest) = .ok []) :
    ProcessVideo fs name path (s0 :: rest) ⟨m2, scr, tr⟩ =
      (⟨m2, scr, tr⟩, POut.ok ()) := by
  rw [ProcessVideo_eq_pvLoop fs name path s0 rest n hv hp]
  cases hn : n.toNat with
  | zero => exact absurd hn (by omega)
  | succ p2 =>
    rw [show pvLoop fs name path (s0 :: rest) (p2 + 1) 0 =
      pvStep fs name path (s0 :: rest) 0 (p2 == 0)
        (pvLoop fs name path (s0 :: rest) p2 1) from rfl]
    rw [run_pvStep]
    rw [show buildPass fs m2 path (s0 :: rest) (0 + 1) =
      .ok ([], []) from by rw [buildPass_eq, hnp]; rfl]
    rfl

/-- C6: when the encoder fails at pass j + 1 after j successful passes
(and at least one rung was pending, so an invocation really happened),
ProcessVideo writes one rungFailed marker per pending rung recording the
failing pass index and the issued command, raises the ItemProcessed
control exception that ends the cycle, and leaves the rest of the script
untouched; the appended trace contains the encoder invocation; every
pending rung afterwards carries that failure marker; and any later run of
ProcessVideo over the same rungs returns normally without touching state
— the encoder is never re invoked for the item. -/
theorem c6_failed_pass_settles (fs : PDir) (name : String) (path : Path)
    (s0 : Dict) (rest : List Dict)
    (pcs : List (Dict × String × List String)) (n : Int) (j : Nat)
    (scrtail : List Bool) (m : Marks) (tr : List Ev)
    (hv : dictHas s0 "video.passes" = true)
    (hp : pyParseInt ((dictGet s0 "video.passes").getD "") = some n)
    (hj : j + 1 ≤ n.toNat)
    (hpcs : pendingCores fs m path (s0 :: rest) = .ok pcs)
    (hne : pcs ≠ []) :
    ∃ tr2,
      ProcessVideo fs name path (s0 :: rest)
          ⟨m, List.replicate j true ++ false :: scrtail, tr⟩ =
        (⟨markSetAll m (donesOf path pcs)
            (.rungFailed (j + 1) (passArgsOf path (j + 1) pcs)),
          scrtail, tr ++ tr2⟩,
         POut.item ("Failed pass " ++ toString (j + 1) ++ " on " ++ name
           ++ " but with exception")) ∧
      hasEncode tr2 = true ∧
      (∀ d ∈ donesOf path pcs,
        markGet (markSetAll m (donesOf path pcs)
            (.rungFailed (j + 1) (passArgsOf path (j + 1) pcs))) d =
          some (.rungFailed (j + 1) (passArgsOf path (j + 1) pcs))) ∧
      (∀ (scr2 : List Bool) (tr3 : List Ev),
        ProcessVideo fs name path (s0 :: rest)
            ⟨markSetAll m (donesOf path pcs)
                (.rungFailed (j + 1) (passArgsOf path (j + 1) pcs)),
              scr2, tr3⟩ =
          (⟨markSetAll m (donesOf path pcs)
              (.rungFailed (j + 1) (passArgsOf path (j + 1) pcs)),
            scr2, tr3⟩, POut.ok ())) := by
  obtain ⟨tr2, heq, henc⟩ := pvLoop_fail fs name path (s0 :: rest) pcs hne j
    n.toNat 0 m scrtail tr hpcs hj
  have h0 : 0 + j + 1 = j + 1 := by omega
  rw [h0] at heq
  refine ⟨tr2, ?_, henc, ?_, ?_⟩
  · rw [ProcessVideo_eq_pvLoop fs name path s0 rest n hv hp]
    exact heq
  · intro d hd
    exact markGet_markSetAll_mem _ m _ d hd
  · intro scr2 tr3
    apply ProcessVideo_settled fs name path s0 rest n _ scr2 tr3 hv hp
      (by omega)
    apply pendingCores_ok_nil fs path (s0 :: rest) pcs m _ hpcs
    · intro q hq
      exact pyExists_markSetAll_mono fs _ m _ q hq
    · intro d hd
      exact pyExists_markSetAll_mem fs _ m _ d hd

/-- C6 witness: one pending 1k rung, three configured passes, a script
whose second pass fails. -/
theorem c6_failed_pass_settles_witness :
    ∃ tr2,
      ProcessVideo fsC4 "M" ["M", "M.mkv"] [s6C6]
          ⟨[], List.replicate 1 true ++ false :: [], []⟩ =
        (⟨markSetAll [] (donesOf ["M", "M.mkv"] pcsC6)
            (.rungFailed (1 + 1) (passArgsOf ["M", "M.mkv"] (1 + 1) pcsC6)),
          [], [] ++ tr2⟩,
         POut.item ("Failed pass " ++ toString (1 + 1) ++ " on " ++ "M"
           ++ " but with exception")) ∧
      hasEncode tr2 = true ∧
      (∀ d ∈ donesOf ["M", "M.mkv"] pcsC6,
        markGet (markSetAll [] (donesOf ["M", "M.mkv"] pcsC6)
            (.rungFailed (1 + 1) (passArgsOf ["M", "M.mkv"] (1 + 1) pcsC6))) d =
          some (.rungFailed (1 + 1) (passArgsOf ["M", "M.mkv"] (1 + 1) pcsC6))) ∧
      (∀ (scr2 : List Bool) (tr3 : List Ev),
        ProcessVideo fsC4 "M" ["M", "M.mkv"] [s6C6]
            ⟨markSetAll [] (donesOf ["M", "M.mkv"] pcsC6)
                (.rungFailed (1 + 1)
                  (passArgsOf ["M", "M.mkv"] (1 + 1) pcsC6)),
              scr2, tr3⟩ =
          (⟨markSetAll [] (donesOf ["M", "M.mkv"] pcsC6)
              (.rungFailed (1 + 1) (passArgsOf ["M", "M.mkv"] (1 + 1) pcsC6)),
            scr2, tr3⟩, POut.ok ())) :=
  c6_failed_pass_settles fsC4 "M" ["M", "M.mkv"] s6C6 [] pcsC6 3 1 [] [] []
    (by with_unfolding_all rfl) (by with_unfolding_all rfl) (by decide)
    (by with_unfolding_all rfl) (by simp [pcsC6])

/-! ## The all success pass schedule (amended C4) -/

theorem encodeArgs_append (a b : List Ev) :
    encodeArgs (a ++ b) = encodeArgs a ++ encodeArgs b := by
  simp [encodeArgs, List.filterMap_append]

/-- The pass loop under an all success script: every pass 1..rem issues
one invocation (the commands in pass order), the final pass writes one
rungCompleted marker per pending rung, and ItemProcessed is raised. -/
theorem pvLoop_success (fs : PDir) (name : String) (path : Path)
    (lst : List Dict) (pcs : List (Dict × String × List String))
    (hne : pcs ≠ []) :
    ∀ (rem i : Nat) (m : Marks) (scrtail : List Bool) (tr : List Ev),
      pendingCores fs m path lst = .ok pcs →
      1 ≤ rem →
      ∃ tr2,
        pvLoop fs name path lst rem i
            ⟨m, List.replicate rem true ++ scrtail, tr⟩ =
          (⟨markSetAll m (donesOf path pcs)
              (.rungCompleted (passArgsOf path (i + rem) pcs)),
            scrtail, tr ++ tr2⟩,
           POut.item ("Finished " ++ pathStr path)) ∧
        encodeArgs tr2 =
          (List.range rem).map (fun k => passArgsOf path (i + k + 1) pcs) := by
  have hdl : ¬(donesOf path pcs).length = 0 := by
    simp only [donesOf, List.length_map]
    intro h
    exact hne (List.length_eq_zero.mp h)
  intro rem
  induction rem with
  | zero =>
    intro i m scrtail tr hpcs hle
    exact absurd hle (by omega)
  | succ rem2 ih =>
    intro i m scrtail tr hpcs hle
    rw [show pvLoop fs name path lst (rem2 + 1) i =
      pvStep fs name path lst i (rem2 == 0)
        (pvLoop fs name path lst rem2 (i + 1)) from rfl]
    rw [run_pvStep]
    rw [show buildPass fs m path lst (i + 1) = .ok
      (passArgsOf path (i + 1) pcs, donesOf path pcs) from by
        rw [buildPass_eq, hpcs]; rfl]
    dsimp only
    rw [if_neg hdl]
    rw [show List.replicate (rem2 + 1) true ++ scrtail =
      true :: (List.replicate rem2 true ++ scrtail) from rfl]
    dsimp only
    simp only [Bool.not_true, Bool.false_eq_true, if_false]
    cases rem2 with
    | zero =>
      rw [if_pos (show ((0 : Nat) == 0) = true from rfl)]
      rw [run_pvFinish]
      refine ⟨[Ev.encode (passArgsOf path (i + 1) pcs),
        Ev.notify ("Completed item " ++ name) ("Done " ++ name)], ?_, ?_⟩
      · simp [List.append_assoc]
      · simp [encodeArgs, List.range_succ]
    | succ rem3 =>
      rw [if_neg (show ¬(((rem3 + 1 : Nat) == 0) = true) from by simp)]
      rw [run_pvCont]
      obtain ⟨tr2, heq, hea⟩ := ih (i + 1) m scrtail
        ((tr ++ [Ev.encode (passArgsOf path (i + 1) pcs)]) ++
          [Ev.notify ("Pass " ++ toString (i + 1) ++ " done on item " ++ name)
            ("Pass " ++ toString (i + 1) ++ " of " ++ name)])
        hpcs (by omega)
      rw [heq]
      have hidx : i + 1 + (rem3 + 1) = i + (rem3 + 1 + 1) := by omega
      rw [hidx]
      refine ⟨[Ev.encode (passArgsOf path (i + 1) pcs),
        Ev.notify ("Pass " ++ toString (i + 1) ++ " done on item " ++ name)
          ("Pass " ++ toString (i + 1) ++ " of " ++ name)] ++ tr2, ?_, ?_⟩
      · simp [List.append_assoc]
      · rw [encodeArgs_append]
        rw [show encodeArgs [Ev.encode (passArgsOf path (i + 1) pcs),
          Ev.notify ("Pass " ++ toString (i + 1) ++ " done on item " ++ name)
            ("Pass " ++ toString (i + 1) ++ " of " ++ name)] =
          [passArgsOf path (i + 1) pcs] from rfl]
        rw [hea]
        have htail : List.map (fun k => passArgsOf path (i + 1 + k + 1) pcs)
            (List.range (rem3 + 1)) =
            List.map ((fun k => passArgsOf path (i + k + 1) pcs) ∘ Nat.succ)
              (List.range (rem3 + 1)) := by
          apply List.map_congr_left
          intro k _
          simp only [Function.comp_apply]
          congr 1
          omega
        rw [htail]
        rw [show List.range (rem3 + 1 + 1) =
          0 :: (List.range (rem3 + 1)).map Nat.succ from
          List.range_succ_eq_map _]
        rw [List.map_cons, List.map_map]
        rfl

/-- The output target appended by one BuildFfmpegCommand call is the
discard sink exactly when the pass count argument is 1, and the real
destination file otherwise. -/
theorem BuildFfmpegCommand_output (args : List String) (src dest : Path)
    (stg : Dict) (p : Nat) (l : List String)
    (h : BuildFfmpegCommand args src dest stg p = .ok l) :
    l.getLast? = some (if p = 1 then devnullStr else pathStr dest) := by
  rw [BuildFfmpegCommand_eq] at h
  cases hc : ffCore stg with
  | error e => rw [hc] at h; simp [Except.map] at h
  | ok core =>
    rw [hc] at h
    simp only [Except.map] at h
    injection h with h2
    rw [← h2]
    exact List.getLast?_concat _

/-- C4 (amended): under an all success script ProcessVideo issues exactly
one invocation per pass index 1..n, in order, each pass aggregating the
same pending rungs; and the output argument a BuildFfmpegCommand call
appends is the discard sink exactly on pass index 1 — every pass from 2 on
(the final one included) targets the real per rung output file. -/
theorem c4_pass_routing (fs : PDir) (name : String) (path : Path)
    (s0 : Dict) (rest : List Dict)
    (pcs : List (Dict × String × List String)) (n : Int) (nn : Nat)
    (scrtail : List Bool) (m : Marks) (tr : List Ev)
    (hv : dictHas s0 "video.passes" = true)
    (hp : pyParseInt ((dictGet s0 "video.passes").getD "") = some n)
    (hnn : n.toNat = nn)
    (hpos : 1 ≤ nn)
    (hpcs : pendingCores fs m path (s0 :: rest) = .ok pcs)
    (hne : pcs ≠ []) :
    (∃ tr2,
      ProcessVideo fs name path (s0 :: rest)
          ⟨m, List.replicate nn true ++ scrtail, tr⟩ =
        (⟨markSetAll m (donesOf path pcs)
            (.rungCompleted (passArgsOf path nn pcs)),
          scrtail, tr ++ tr2⟩,
         POut.item ("Finished " ++ pathStr path)) ∧
      encodeArgs tr2 =
        (List.range nn).map (fun k => passArgsOf path (k + 1) pcs)) ∧
    (∀ (args2 : List String) (src dest : Path) (stg : Dict) (p : Nat)
        (l : List String),
      BuildFfmpegCommand args2 src dest stg p = .ok l →
      l.getLast? = some (if p = 1 then devnullStr else pathStr dest)) := by
  constructor
  · obtain ⟨tr2, heq, hea⟩ := pvLoop_success fs name path (s0 :: rest) pcs hne
      nn 0 m scrtail tr hpcs hpos
    have h1 : 0 + nn = nn := by omega
    rw [h1] at heq
    refine ⟨tr2, ?_, ?_⟩
    · rw [ProcessVideo_eq_pvLoop fs name path s0 rest n hv hp, hnn]
      exact heq
    · rw [hea]
      apply List.map_congr_left
      intro k _
      congr 1
      omega
  · exact fun args2 src dest stg p l h =>
      BuildFfmpegCommand_output args2 src dest stg p l h

/-- C4 witness: one pending 1k rung and three passes, all successful. -/
theorem c4_pass_routing_witness :
    (∃ tr2,
      ProcessVideo fsC4 "M" ["M", "M.mkv"] [s6C6]
          ⟨[], List.replicate 3 true ++ [], []⟩ =
        (⟨markSetAll [] (donesOf ["M", "M.mkv"] pcsC6)
            (.rungCompleted (passArgsOf ["M", "M.mkv"] 3 pcsC6)),
          [], [] ++ tr2⟩,
         POut.item ("Finished " ++ pathStr ["M", "M.mkv"])) ∧
      encodeArgs tr2 =
        (List.range 3).map (fun k => passArgsOf ["M", "M.mkv"] (k + 1) pcsC6)) ∧
    (∀ (args2 : List String) (src dest : Path) (stg : Dict) (p : Nat)
        (l : List String),
      BuildFfmpegCommand args2 src dest stg p = .ok l →
      l.getLast? = some (if p = 1 then devnullStr else pathStr dest)) :=
  c4_pass_routing fsC4 "M" ["M", "M.mkv"] s6C6 [] pcsC6 3 3 [] [] []
    (by with_unfolding_all rfl) (by with_unfolding_all rfl)
    (by with_unfolding_all rfl) (by decide)
    (by with_unfolding_all rfl) (by simp [pcsC6])

/-! ## Symbolic execution of the per file movie body -/

theorem run_liftE_ok_bind {α β : Type} (a : α) (k : α → PyM β) (st : St) :
    (liftE (Except.ok a) >>= k) st = k a st := rfl

theorem run_liftE_error_bind {α β : Type} (msg : String) (k : α → PyM β)
    (st : St) :
    (liftE (Except.error msg : Except String α) >>= k) st =
      (st, POut.exn msg) := rfl

theorem run_getsizeM (fs : PDir) (p : Path) (i : VInfo)
    (hfl : fileLookup fs p = some i) (st : St) :
    getsizeM fs p st =
      (⟨st.marks, st.script, st.trace ++ [.statSize p]⟩, POut.ok i.size) := by
  unfold getsizeM
  rw [run_emit_bind]
  rw [hfl]
  rfl

theorem run_getsizeM_bind {β : Type} (fs : PDir) (p : Path) (i : VInfo)
    (hfl : fileLookup fs p = some i) (k : Nat → PyM β) (st : St) :
    (getsizeM fs p >>= k) st =
      k i.size ⟨st.marks, st.script, st.trace ++ [.statSize p]⟩ := by
  rw [bind_run]
  rw [run_getsizeM fs p i hfl]

theorem run_GetResolution (fs : PDir) (p : Path) (sz w h : Nat)
    (hfl : fileLookup fs p = some ⟨sz, some (w, h)⟩) (st : St) :
    GetResolution fs p st =
      (⟨st.marks, st.script, st.trace ++ [.probe p]⟩, POut.ok (w, h)) := by
  unfold GetResolution
  rw [run_emit_bind]
  rw [hfl]
  rfl

theorem run_GetResolution_bind {β : Type} (fs : PDir) (p : Path)
    (sz w h : Nat) (hfl : fileLookup fs p = some ⟨sz, some (w, h)⟩)
    (k : Nat × Nat → PyM β) (st : St) :
    (GetResolution fs p >>= k) st =
      k (w, h) ⟨st.marks, st.script, st.trace ++ [.probe p]⟩ := by
  rw [bind_run]
  rw [run_GetResolution fs p sz w h hfl]

/-- A candidate file whose probe yields dimensions the classifier rejects:
the body stats and probes the file, then the classification error escapes
as an uncaught exception; no marker is written (the marks component is
untouched) and no later step of the body runs. -/
theorem pmBody_unknown_dims (fs : PDir) (chain : List CfgFile) (path : Path)
    (name item : String) (mf : Bool) (sz w h : Nat) (msg : String) (st : St)
    (hfile : isFileB fs st.marks (path ++ [item]) = true)
    (hmf : (if item.startsWith name then multiFlag (chain.headD []) "feature"
            else multiFlag (chain.headD []) "special") = .ok mf)
    (hfl : fileLookup fs (path ++ [item]) = some ⟨sz, some (w, h)⟩)
    (hsz : sz ≠ 0)
    (hgr : GuessResolution w h = .error msg) :
    pmBody fs chain path name item st =
      ({ st with trace := st.trace ++ [.statSize (path ++ [item]),
          .probe (path ++ [item])] }, POut.exn msg) := by
  unfold pmBody
  dsimp only
  rw [run_getMarks_bind]
  rw [if_pos hfile]
  rw [hmf]
  rw [run_liftE_ok_bind]
  rw [run_getsizeM_bind fs (path ++ [item]) ⟨sz, some (w, h)⟩ hfl]
  rw [if_neg hsz]
  rw [run_GetResolution_bind fs (path ++ [item]) sz w h hfl]
  dsimp only
  rw [hgr]
  rw [run_liftE_error_bind]
  simp [List.append_assoc]

/-- A candidate file of size zero: the body stats the file and returns
normally at once — no probe, no classification, no marker. -/
theorem pmBody_zero_size (fs : PDir) (chain : List CfgFile) (path : Path)
    (name item : String) (mf : Bool) (dims : Option (Nat × Nat)) (st : St)
    (hfile : isFileB fs st.marks (path ++ [item]) = true)
    (hmf : (if item.startsWith name then multiFlag (chain.headD []) "feature"
            else multiFlag (chain.headD []) "special") = .ok mf)
    (hfl : fileLookup fs (path ++ [item]) = some ⟨0, dims⟩) :
    pmBody fs chain path name item st =
      ({ st with trace := st.trace ++ [.statSize (path ++ [item])] },
        POut.ok ()) := by
  unfold pmBody
  dsimp only
  rw [run_getMarks_bind]
  rw [if_pos hfile]
  rw [hmf]
  rw [run_liftE_ok_bind]
  rw [run_getsizeM_bind fs (path ++ [item]) ⟨0, dims⟩ hfl]
  rw [if_pos rfl]
  rfl

/-- An exception from the body of the file loop short circuits the loop:
the remaining (sibling) files of the item are never reached. -/
theorem pmLoop_exn (fs : PDir) (chain : List CfgFile) (path : Path)
    (name item : String) (rest : List String) (st s1 : St) (e : String)
    (h : pmBody fs chain path name item st = (s1, POut.exn e)) :
    pmLoop fs chain path name (item :: rest) st = (s1, POut.exn e) := by
  rw [show pmLoop fs chain path name (item :: rest) =
    pmBody fs chain path name item >>= fun _ =>
      pmLoop fs chain path name rest from rfl]
  rw [bind_run, h]

/-- processdirs re raises any non ItemProcessed exception of a root:
the later roots of the cycle are never reached. -/
theorem processdirs_exn (fs : PDir) (root : Node) (roots : List Node)
    (st s1 : St) (e : String)
    (h : Process fs [] root st = (s1, POut.exn e)) :
    processdirs fs (root :: roots) st = (s1, POut.exn e) := by
  rw [show processdirs fs (root :: roots) st =
    (match Process fs [] root st with
     | (s2, POut.ok _) => processdirs fs roots s2
     | (s2, POut.item _) => (s2, POut.ok ())
     | (s2, POut.exn e2) => (s2, POut.exn e2)) from rfl]
  rw [h]

/-- C7 (amended): an item probing to an unrecognized dimension pair is
fatal to the whole cycle, not isolated to the item.  (1) The classifier
rejects every pair outside its four entry table with the uncaught
exception of the fall through branch (a NameError, since the message
formatting references the undefined name subp).  (2) The per file body
stats and probes such a file and then aborts with that exception, writing
no marker.  (3) The file loop short circuits, so sibling files of the
item are never reached in the cycle.  (4) processdirs re raises the
exception, so later roots are never reached either: the failure recurs
identically in every later cycle since no state changed. -/
theorem c7_unknown_pair_fatal :
    (∀ w h : Nat, (w, h) ≠ (720, 480) → (w, h) ≠ (1080, 720) →
      (w, h) ≠ (1920, 1080) →
      ¬((w, h) = (4096, 2160) ∨ (w, h) = (3840, 2160)) →
      GuessResolution w h =
        .error "NameError: name subp is not defined") ∧
    (∀ (fs : PDir) (chain : List CfgFile) (path : Path) (name item : String)
        (mf : Bool) (sz w h : Nat) (msg : String) (st : St),
      isFileB fs st.marks (path ++ [item]) = true →
      (if item.startsWith name then multiFlag (chain.headD []) "feature"
       else multiFlag (chain.headD []) "special") = .ok mf →
      fileLookup fs (path ++ [item]) = some ⟨sz, some (w, h)⟩ →
      sz ≠ 0 →
      GuessResolution w h = .error msg →
      pmBody fs chain path name item st =
        ({ st with trace := st.trace ++ [.statSize (path ++ [item]),
            .probe (path ++ [item])] }, POut.exn msg)) ∧
    (∀ (fs : PDir) (chain : List CfgFile) (path : Path) (name item : String)
        (rest : List String) (st s1 : St) (e : String),
      pmBody fs chain path name item st = (s1, POut.exn e) →
      pmLoop fs chain path name (item :: rest) st = (s1, POut.exn e)) ∧
    (∀ (fs : PDir) (root : Node) (roots : List Node) (st s1 : St) (e : String),
      Process fs [] root st = (s1, POut.exn e) →
      processdirs fs (root :: roots) st = (s1, POut.exn e)) := by
  refine ⟨?_, ?_, ?_, ?_⟩
  · intro w h h1 h2 h3 h4
    unfold GuessResolution
    rw [if_neg h1, if_neg h2, if_neg h3, if_neg h4]
  · intro fs chain path name item mf sz w h msg st hfile hmf hfl hsz hgr
    exact pmBody_unknown_dims fs chain path name item mf sz w h msg st
      hfile hmf hfl hsz hgr
  · intro fs chain path name item rest st s1 e h
    exact pmLoop_exn fs chain path name item rest st s1 e h
  · intro fs root roots st s1 e h
    exact processdirs_exn fs root roots st s1 e h

/-- C7 witness: the 640 x 360 pair is rejected, and the two root cycle
over the fsC7 movie aborts before reaching the second root. -/
theorem c7_unknown_pair_fatal_witness :
    GuessResolution 640 360 =
      .error "NameError: name subp is not defined" ∧
    processdirs fsC7 [nodeC7, nodeC7] ⟨[], [], []⟩ =
      (⟨[], [], [.statSize ["M", "A.mkv"], .probe ["M", "A.mkv"]]⟩,
       POut.exn "NameError: name subp is not defined") :=
  ⟨c7_unknown_pair_fatal.1 640 360 (by decide) (by decide) (by decide)
      (by decide),
   c7_unknown_pair_fatal.2.2.2 fsC7 nodeC7 [nodeC7] ⟨[], [], []⟩
     ⟨[], [], [.statSize ["M", "A.mkv"], .probe ["M", "A.mkv"]]⟩
     "NameError: name subp is not defined" (by with_unfolding_all rfl)⟩

/-! ## The item marker after an idle traversal (amended C10) -/

/-- An item whose top level dot marker exists is skipped whole: no event,
no state change, normal return. -/
theorem processItemsBody_skip (fs : PDir) (chain : List CfgFile)
    (cfg : CfgFile) (ipath : Path) (st : St)
    (hdone : pyExists fs st.marks (GetDotFileName ipath) = true) :
    processItemsBody fs chain cfg ipath st = (st, POut.ok ()) := by
  unfold processItemsBody
  dsimp only
  rw [run_getMarks_bind]
  rw [if_pos hdone]
  rfl

/-- When the movie traversal of an unmarked item returns normally, the
body writes the item completed marker into the returned state. -/
theorem processItemsBody_marks (fs : PDir) (chain : List CfgFile)
    (cfg : CfgFile) (ipath : Path) (st s1 : St)
    (hdone : pyExists fs st.marks (GetDotFileName ipath) = false)
    (hmode : isMode cfg "movie" = true)
    (hrun : ProcessMovie fs chain ipath st = (s1, POut.ok ())) :
    processItemsBody fs chain cfg ipath st =
      ({ s1 with
          marks := markSet s1.marks (GetDotFileName ipath) MarkText.itemCompleted },
        POut.ok ()) := by
  unfold processItemsBody
  dsimp only
  rw [run_getMarks_bind]
  rw [if_neg (by simp [hdone])]
  rw [if_pos hmode]
  rw [bind_run, hrun]
  rfl

/-- C10 (amended): (1) a zero size candidate file is skipped in the cycle
before any probe and without any marker of its own — the per file body
only stats it and returns normally; (2) but when the enclosing unmarked
item traversal then returns normally, the item completed marker is
written; (3) and an item whose marker exists is skipped whole in any
later cycle — nothing is examined again, so the zero size file is not
re-examined in later cycles. -/
theorem c10_zero_size_settles_item :
    (∀ (fs : PDir) (chain : List CfgFile) (path : Path) (name item : String)
        (mf : Bool) (dims : Option (Nat × Nat)) (st : St),
      isFileB fs st.marks (path ++ [item]) = true →
      (if item.startsWith name then multiFlag (chain.headD []) "feature"
       else multiFlag (chain.headD []) "special") = .ok mf →
      fileLookup fs (path ++ [item]) = some ⟨0, dims⟩ →
      pmBody fs chain path name item st =
        ({ st with trace := st.trace ++ [.statSize (path ++ [item])] },
          POut.ok ())) ∧
    (∀ (fs : PDir) (chain : List CfgFile) (cfg : CfgFile) (ipath : Path)
        (st s1 : St),
      pyExists fs st.marks (GetDotFileName ipath) = false →
      isMode cfg "movie" = true →
      ProcessMovie fs chain ipath st = (s1, POut.ok ()) →
      processItemsBody fs chain cfg ipath st =
        ({ s1 with
            marks := markSet s1.marks (GetDotFileName ipath) MarkText.itemCompleted },
          POut.ok ())) ∧
    (∀ (fs : PDir) (chain : List CfgFile) (cfg : CfgFile) (ipath : Path)
        (st : St),
      pyExists fs st.marks (GetDotFileName ipath) = true →
      processItemsBody fs chain cfg ipath st = (st, POut.ok ())) := by
  refine ⟨?_, ?_, ?_⟩
  · intro fs chain path name item mf dims st hfile hmf hfl
    exact pmBody_zero_size fs chain path name item mf dims st hfile hmf hfl
  · intro fs chain cfg ipath st s1 hdone hmode hrun
    exact processItemsBody_marks fs chain cfg ipath st s1 hdone hmode hrun
  · intro fs chain cfg ipath st hdone
    exact processItemsBody_skip fs chain cfg ipath st hdone

/-- C10 witness: the zero size item of fsC10 — skipped before any probe,
then settled by the item marker, then skipped whole. -/
theorem c10_zero_size_settles_item_witness :
    pmBody fsC10 [cfgC4] ["Z"] "Z" "Z.mkv" ⟨[], [], []⟩ =
      (⟨[], [], [.statSize ["Z", "Z.mkv"]]⟩, POut.ok ()) ∧
    processItemsBody fsC10 [cfgC4] cfgC4 ["Z"] ⟨[], [], []⟩ =
      (⟨[([".Z"], .itemCompleted)], [], [.statSize ["Z", "Z.mkv"]]⟩,
        POut.ok ()) ∧
    processItemsBody fsC10 [cfgC4] cfgC4 ["Z"]
        ⟨[([".Z"], .itemCompleted)], [], []⟩ =
      (⟨[([".Z"], .itemCompleted)], [], []⟩, POut.ok ()) :=
  ⟨c10_zero_size_settles_item.1 fsC10 [cfgC4] ["Z"] "Z" "Z.mkv" false
      (some (1920, 1080)) ⟨[], [], []⟩ (by with_unfolding_all rfl)
      (by with_unfolding_all rfl) (by with_unfolding_all rfl),
   c10_zero_size_settles_item.2.1 fsC10 [cfgC4] cfgC4 ["Z"] ⟨[], [], []⟩
     ⟨[], [], [.statSize ["Z", "Z.mkv"]]⟩ (by with_unfolding_all rfl)
     (by with_unfolding_all rfl) (by with_unfolding_all rfl),
   c10_zero_size_settles_item.2.2 fsC10 [cfgC4] cfgC4 ["Z"]
     ⟨[([".Z"], .itemCompleted)], [], []⟩ (by with_unfolding_all rfl)⟩

end Pyconvy
